import Mathlib

/-!
Shallow embedding of the AES.js cipher core (src/src/implementation.js) as
executable Lean definitions, followed by theorems checking the repository's
natural-language specification against the code.

Buffers are modelled as `List Nat` of byte values.  The JS 4×4 state grid
stores `state[row][column] = buffer[row + 4*column]` (`copyInputToState` /
`copyStateToOutput`), so a state in flat buffer layout is the buffer itself;
all state operations below are written directly on the flat 16-byte list,
with index `i` corresponding to grid position `row = i % 4`, `column = i / 4`.
-/

set_option maxRecDepth 10000

namespace AESjs

/-- Error taxonomy for the fallible paths of the code: `cipher`'s size check,
`keyExpansion`'s key-length checks, `decrypt`'s alignment check, and the
JS `RangeError` raised when the key size is neither 128 nor 256. -/
inductive AESError where
  | keyLengthMismatch
  | blockSizeMismatch
  | ciphertextAlignment
  | invalidKeySize
  deriving DecidableEq, Repr

instance {ε α : Type} [DecidableEq ε] [DecidableEq α] : DecidableEq (Except ε α)
  | .ok a, .ok b =>
    if h : a = b then isTrue (by rw [h]) else isFalse (fun hh => h (Except.ok.inj hh))
  | .ok _, .error _ => isFalse (fun h => Except.noConfusion h)
  | .error _, .ok _ => isFalse (fun h => Except.noConfusion h)
  | .error a, .error b =>
    if h : a = b then isTrue (by rw [h]) else isFalse (fun hh => h (Except.error.inj hh))

/-- Forward S-box table (`sBox` in implementation.js). -/
def sBox : List Nat := [
  0x63, 0x7c, 0x77, 0x7b, 0xf2, 0x6b, 0x6f, 0xc5, 0x30, 0x01, 0x67, 0x2b, 0xfe,
  0xd7, 0xab, 0x76, 0xca, 0x82, 0xc9, 0x7d, 0xfa, 0x59, 0x47, 0xf0, 0xad, 0xd4,
  0xa2, 0xaf, 0x9c, 0xa4, 0x72, 0xc0, 0xb7, 0xfd, 0x93, 0x26, 0x36, 0x3f, 0xf7,
  0xcc, 0x34, 0xa5, 0xe5, 0xf1, 0x71, 0xd8, 0x31, 0x15, 0x04, 0xc7, 0x23, 0xc3,
  0x18, 0x96, 0x05, 0x9a, 0x07, 0x12, 0x80, 0xe2, 0xeb, 0x27, 0xb2, 0x75, 0x09,
  0x83, 0x2c, 0x1a, 0x1b, 0x6e, 0x5a, 0xa0, 0x52, 0x3b, 0xd6, 0xb3, 0x29, 0xe3,
  0x2f, 0x84, 0x53, 0xd1, 0x00, 0xed, 0x20, 0xfc, 0xb1, 0x5b, 0x6a, 0xcb, 0xbe,
  0x39, 0x4a, 0x4c, 0x58, 0xcf, 0xd0, 0xef, 0xaa, 0xfb, 0x43, 0x4d, 0x33, 0x85,
  0x45, 0xf9, 0x02, 0x7f, 0x50, 0x3c, 0x9f, 0xa8, 0x51, 0xa3, 0x40, 0x8f, 0x92,
  0x9d, 0x38, 0xf5, 0xbc, 0xb6, 0xda, 0x21, 0x10, 0xff, 0xf3, 0xd2, 0xcd, 0x0c,
  0x13, 0xec, 0x5f, 0x97, 0x44, 0x17, 0xc4, 0xa7, 0x7e, 0x3d, 0x64, 0x5d, 0x19,
  0x73, 0x60, 0x81, 0x4f, 0xdc, 0x22, 0x2a, 0x90, 0x88, 0x46, 0xee, 0xb8, 0x14,
  0xde, 0x5e, 0x0b, 0xdb, 0xe0, 0x32, 0x3a, 0x0a, 0x49, 0x06, 0x24, 0x5c, 0xc2,
  0xd3, 0xac, 0x62, 0x91, 0x95, 0xe4, 0x79, 0xe7, 0xc8, 0x37, 0x6d, 0x8d, 0xd5,
  0x4e, 0xa9, 0x6c, 0x56, 0xf4, 0xea, 0x65, 0x7a, 0xae, 0x08, 0xba, 0x78, 0x25,
  0x2e, 0x1c, 0xa6, 0xb4, 0xc6, 0xe8, 0xdd, 0x74, 0x1f, 0x4b, 0xbd, 0x8b, 0x8a,
  0x70, 0x3e, 0xb5, 0x66, 0x48, 0x03, 0xf6, 0x0e, 0x61, 0x35, 0x57, 0xb9, 0x86,
  0xc1, 0x1d, 0x9e, 0xe1, 0xf8, 0x98, 0x11, 0x69, 0xd9, 0x8e, 0x94, 0x9b, 0x1e,
  0x87, 0xe9, 0xce, 0x55, 0x28, 0xdf, 0x8c, 0xa1, 0x89, 0x0d, 0xbf, 0xe6, 0x42,
  0x68, 0x41, 0x99, 0x2d, 0x0f, 0xb0, 0x54, 0xbb, 0x16]

/-- Inverse S-box table (`invSBox` in implementation.js). -/
def invSBox : List Nat := [
  0x52, 0x09, 0x6a, 0xd5, 0x30, 0x36, 0xa5, 0x38, 0xbf, 0x40, 0xa3, 0x9e, 0x81,
  0xf3, 0xd7, 0xfb, 0x7c, 0xe3, 0x39, 0x82, 0x9b, 0x2f, 0xff, 0x87, 0x34, 0x8e,
  0x43, 0x44, 0xc4, 0xde, 0xe9, 0xcb, 0x54, 0x7b, 0x94, 0x32, 0xa6, 0xc2, 0x23,
  0x3d, 0xee, 0x4c, 0x95, 0x0b, 0x42, 0xfa, 0xc3, 0x4e, 0x08, 0x2e, 0xa1, 0x66,
  0x28, 0xd9, 0x24, 0xb2, 0x76, 0x5b, 0xa2, 0x49, 0x6d, 0x8b, 0xd1, 0x25, 0x72,
  0xf8, 0xf6, 0x64, 0x86, 0x68, 0x98, 0x16, 0xd4, 0xa4, 0x5c, 0xcc, 0x5d, 0x65,
  0xb6, 0x92, 0x6c, 0x70, 0x48, 0x50, 0xfd, 0xed, 0xb9, 0xda, 0x5e, 0x15, 0x46,
  0x57, 0xa7, 0x8d, 0x9d, 0x84, 0x90, 0xd8, 0xab, 0x00, 0x8c, 0xbc, 0xd3, 0x0a,
  0xf7, 0xe4, 0x58, 0x05, 0xb8, 0xb3, 0x45, 0x06, 0xd0, 0x2c, 0x1e, 0x8f, 0xca,
  0x3f, 0x0f, 0x02, 0xc1, 0xaf, 0xbd, 0x03, 0x01, 0x13, 0x8a, 0x6b, 0x3a, 0x91,
  0x11, 0x41, 0x4f, 0x67, 0xdc, 0xea, 0x97, 0xf2, 0xcf, 0xce, 0xf0, 0xb4, 0xe6,
  0x73, 0x96, 0xac, 0x74, 0x22, 0xe7, 0xad, 0x35, 0x85, 0xe2, 0xf9, 0x37, 0xe8,
  0x1c, 0x75, 0xdf, 0x6e, 0x47, 0xf1, 0x1a, 0x71, 0x1d, 0x29, 0xc5, 0x89, 0x6f,
  0xb7, 0x62, 0x0e, 0xaa, 0x18, 0xbe, 0x1b, 0xfc, 0x56, 0x3e, 0x4b, 0xc6, 0xd2,
  0x79, 0x20, 0x9a, 0xdb, 0xc0, 0xfe, 0x78, 0xcd, 0x5a, 0xf4, 0x1f, 0xdd, 0xa8,
  0x33, 0x88, 0x07, 0xc7, 0x31, 0xb1, 0x12, 0x10, 0x59, 0x27, 0x80, 0xec, 0x5f,
  0x60, 0x51, 0x7f, 0xa9, 0x19, 0xb5, 0x4a, 0x0d, 0x2d, 0xe5, 0x7a, 0x9f, 0x93,
  0xc9, 0x9c, 0xef, 0xa0, 0xe0, 0x3b, 0x4d, 0xae, 0x2a, 0xf5, 0xb0, 0xc8, 0xeb,
  0xbb, 0x3c, 0x83, 0x53, 0x99, 0x61, 0x17, 0x2b, 0x04, 0x7e, 0xba, 0x77, 0xd6,
  0x26, 0xe1, 0x69, 0x14, 0x63, 0x55, 0x21, 0x0c, 0x7d]

/-- Round-constant table (`roundConstant` in implementation.js). -/
def roundConstant : List (List Nat) := [
  [0x00, 0x00, 0x00, 0x00],
  [0x01, 0x00, 0x00, 0x00],
  [0x02, 0x00, 0x00, 0x00],
  [0x04, 0x00, 0x00, 0x00],
  [0x08, 0x00, 0x00, 0x00],
  [0x10, 0x00, 0x00, 0x00],
  [0x20, 0x00, 0x00, 0x00],
  [0x40, 0x00, 0x00, 0x00],
  [0x80, 0x00, 0x00, 0x00],
  [0x1b, 0x00, 0x00, 0x00],
  [0x36, 0x00, 0x00, 0x00]]

/-- GF(2^8) doubling shortcut used inline by `mixColumns` and by the loop body
of `multiply`: `x & 0x80 ? x << 1 ^ 0x011b : x << 1`. -/
def double (x : Nat) : Nat :=
  if x &&& 0x80 ≠ 0 then (x <<< 1) ^^^ 0x011b else x <<< 1

/-- Loop of `multiply` in implementation.js, with the iteration counter
(capped at `maxIterations = 8`) as fuel.  The loop runs while `a && b`
(both nonzero); each pass XORs `a` into `p` when the low bit of `b` is set,
halves `b` (masked to 7 bits), and doubles `a` with the `0x011b` reduction. -/
def multiplyLoop : Nat → Nat → Nat → Nat → Nat
  | 0, _, _, p => p
  | fuel + 1, a, b, p =>
    if a ≠ 0 ∧ b ≠ 0 then
      let p2 := if b &&& 0x01 ≠ 0 then p ^^^ a else p
      let b2 := (b >>> 1) &&& 0x7f
      let a2 := if a &&& 0x80 ≠ 0 then (a <<< 1) ^^^ 0x011b else a <<< 1
      multiplyLoop fuel a2 b2 p2
    else p

/-- Function `multiply` of implementation.js: Rijndael finite-field
multiplication by repeated doubling, at most 8 iterations. -/
def multiply (a b : Nat) : Nat := multiplyLoop 8 a b 0

/-- Modelled from the spec: carry-less polynomial product over the 8 bit
positions of the second factor, the polynomial part of the reference GF(2^8)
multiplication. -/
def gfPolyMulLoop : Nat → Nat → Nat → Nat
  | 0, _, _ => 0
  | fuel + 1, a, b => (if b &&& 1 = 1 then a else 0) ^^^ gfPolyMulLoop fuel (a <<< 1) (b >>> 1)

/-- Modelled from the spec: carry-less polynomial product of two bytes. -/
def gfPolyMul (a b : Nat) : Nat := gfPolyMulLoop 8 a b

/-- Modelled from the spec: one pass of polynomial reduction, clearing bits
`8 + k - 1` down to 8 by XORing shifted copies of 0x11b
(x^8 + x^4 + x^3 + x + 1), highest bit first. -/
def gfReduceGo : Nat → Nat → Nat
  | 0, p => p
  | k + 1, p => gfReduceGo k (if (p >>> (8 + k)) &&& 1 = 1 then p ^^^ (0x11b <<< k) else p)

/-- Modelled from the spec: reduction of a 16-bit polynomial modulo
x^8 + x^4 + x^3 + x + 1. -/
def gfReduce (p : Nat) : Nat := gfReduceGo 8 p

/-- Modelled from the spec: GF(2^8) multiplication "reduced by
x^8+x^4+x^3+x+1", the reference against which `multiply` is checked. -/
def gfMulRef (a b : Nat) : Nat := gfReduce (gfPolyMul a b)

/-- Closed form of the `multiply` loop: the XOR, over the set bits of `b`,
of the iterated doublings of `a`.  Proved below to agree with
`multiplyLoop` for byte-sized `b`. -/
def multiplyBits : Nat → Nat → Nat → Nat
  | 0, _, _ => 0
  | fuel + 1, a, b => (if b &&& 0x01 ≠ 0 then a else 0) ^^^ multiplyBits fuel (double a) (b >>> 1)

/-! State operations.  Each acts on the flat 16-byte layout; grid position
(row r, column c) of the JS state is flat index `r + 4*c`. -/

/-- Function `subBytes`: forward S-box applied to every state byte. -/
def subBytes (s : List Nat) : List Nat :=
  s.map (fun b => sBox.getD b 0)

/-- Function `invSubBytes`: inverse S-box applied to every state byte. -/
def invSubBytes (s : List Nat) : List Nat :=
  s.map (fun b => invSBox.getD b 0)

/-- Function `shiftRows`: `state[row][column] := state[row][(column + row) % 4]`
(row 0 is unchanged since `(c + 0) % 4 = c`).  In flat layout index
`i = r + 4*c` reads from index `r + 4*((c + r) % 4)`. -/
def shiftRows (s : List Nat) : List Nat :=
  (List.range 16).map fun i => s.getD (i % 4 + 4 * ((i / 4 + i % 4) % 4)) 0

/-- Function `invShiftRows`:
`state[row][column] := state[row][(column - row + 4) % 4]`. -/
def invShiftRows (s : List Nat) : List Nat :=
  (List.range 16).map fun i => s.getD (i % 4 + 4 * ((i / 4 + 4 - i % 4) % 4)) 0

/-- Row-0 formula of `mixColumns`: `shift[0] ^ copy[1] ^ shift[1] ^ copy[2] ^ copy[3]`. -/
def mixRow0 (a0 a1 a2 a3 : Nat) : Nat := double a0 ^^^ a1 ^^^ double a1 ^^^ a2 ^^^ a3

/-- Row-1 formula of `mixColumns`: `copy[0] ^ shift[1] ^ copy[2] ^ shift[2] ^ copy[3]`. -/
def mixRow1 (a0 a1 a2 a3 : Nat) : Nat := a0 ^^^ double a1 ^^^ a2 ^^^ double a2 ^^^ a3

/-- Row-2 formula of `mixColumns`: `copy[0] ^ copy[1] ^ shift[2] ^ copy[3] ^ shift[3]`. -/
def mixRow2 (a0 a1 a2 a3 : Nat) : Nat := a0 ^^^ a1 ^^^ double a2 ^^^ a3 ^^^ double a3

/-- Row-3 formula of `mixColumns`: `copy[0] ^ shift[0] ^ copy[1] ^ copy[2] ^ shift[3]`. -/
def mixRow3 (a0 a1 a2 a3 : Nat) : Nat := a0 ^^^ double a0 ^^^ a1 ^^^ a2 ^^^ double a3

/-- Function `mixColumns`: per-column diffusion with the doubling shortcut.
The four bytes of column `i / 4` sit at flat indices `4*(i/4) .. 4*(i/4)+3`. -/
def mixColumns (s : List Nat) : List Nat :=
  (List.range 16).map fun i =>
    if i % 4 = 0 then
      mixRow0 (s.getD (4 * (i / 4)) 0) (s.getD (4 * (i / 4) + 1) 0)
        (s.getD (4 * (i / 4) + 2) 0) (s.getD (4 * (i / 4) + 3) 0)
    else if i % 4 = 1 then
      mixRow1 (s.getD (4 * (i / 4)) 0) (s.getD (4 * (i / 4) + 1) 0)
        (s.getD (4 * (i / 4) + 2) 0) (s.getD (4 * (i / 4) + 3) 0)
    else if i % 4 = 2 then
      mixRow2 (s.getD (4 * (i / 4)) 0) (s.getD (4 * (i / 4) + 1) 0)
        (s.getD (4 * (i / 4) + 2) 0) (s.getD (4 * (i / 4) + 3) 0)
    else
      mixRow3 (s.getD (4 * (i / 4)) 0) (s.getD (4 * (i / 4) + 1) 0)
        (s.getD (4 * (i / 4) + 2) 0) (s.getD (4 * (i / 4) + 3) 0)

/-- Row-0 formula of `invMixColumns`: multiplication by 14, 11, 13, 9. -/
def invMixRow0 (a0 a1 a2 a3 : Nat) : Nat :=
  multiply 0x0e a0 ^^^ multiply 0x0b a1 ^^^ multiply 0x0d a2 ^^^ multiply 0x09 a3

/-- Row-1 formula of `invMixColumns`: multiplication by 9, 14, 11, 13. -/
def invMixRow1 (a0 a1 a2 a3 : Nat) : Nat :=
  multiply 0x09 a0 ^^^ multiply 0x0e a1 ^^^ multiply 0x0b a2 ^^^ multiply 0x0d a3

/-- Row-2 formula of `invMixColumns`: multiplication by 13, 9, 14, 11. -/
def invMixRow2 (a0 a1 a2 a3 : Nat) : Nat :=
  multiply 0x0d a0 ^^^ multiply 0x09 a1 ^^^ multiply 0x0e a2 ^^^ multiply 0x0b a3

/-- Row-3 formula of `invMixColumns`: multiplication by 11, 13, 9, 14. -/
def invMixRow3 (a0 a1 a2 a3 : Nat) : Nat :=
  multiply 0x0b a0 ^^^ multiply 0x0d a1 ^^^ multiply 0x09 a2 ^^^ multiply 0x0e a3

/-- Function `invMixColumns`: per-column inverse diffusion via `multiply`. -/
def invMixColumns (s : List Nat) : List Nat :=
  (List.range 16).map fun i =>
    if i % 4 = 0 then
      invMixRow0 (s.getD (4 * (i / 4)) 0) (s.getD (4 * (i / 4) + 1) 0)
        (s.getD (4 * (i / 4) + 2) 0) (s.getD (4 * (i / 4) + 3) 0)
    else if i % 4 = 1 then
      invMixRow1 (s.getD (4 * (i / 4)) 0) (s.getD (4 * (i / 4) + 1) 0)
        (s.getD (4 * (i / 4) + 2) 0) (s.getD (4 * (i / 4) + 3) 0)
    else if i % 4 = 2 then
      invMixRow2 (s.getD (4 * (i / 4)) 0) (s.getD (4 * (i / 4) + 1) 0)
        (s.getD (4 * (i / 4) + 2) 0) (s.getD (4 * (i / 4) + 3) 0)
    else
      invMixRow3 (s.getD (4 * (i / 4)) 0) (s.getD (4 * (i / 4) + 1) 0)
        (s.getD (4 * (i / 4) + 2) 0) (s.getD (4 * (i / 4) + 3) 0)

/-- Function `addRoundKey`:
`state[row][column] ^= keySchedule[round * 4 + column][row]`.  In flat layout
index `i` (row `i % 4`, column `i / 4`) XORs with byte `i % 4` of schedule
word `round * 4 + i / 4`.  A byte read past either list defaults to 0, which
matches JS `undefined` coercing to 0 under `^`. -/
def addRoundKey (keySchedule : List (List Nat)) (round : Nat) (s : List Nat) : List Nat :=
  (List.range 16).map fun i =>
    s.getD i 0 ^^^ (keySchedule.getD (round * 4 + i / 4) []).getD (i % 4) 0

/-- Function `subWord`: forward S-box on each byte of a 4-byte word. -/
def subWord (word : List Nat) : List Nat :=
  word.map (fun b => sBox.getD b 0)

/-- Function `rotateWord`: rotate a word left one byte
(`word[i] = word[i+1]`, last byte gets the old first byte). -/
def rotateWord (word : List Nat) : List Nat :=
  match word with
  | [] => []
  | x :: xs => xs ++ [x]

/-- The `temp` word of one iteration of `keyExpansion`'s expansion loop:
word `i - 1` of the schedule built so far, rotated, S-box-substituted and
XORed with round constant `i / keyLength` when `i % keyLength == 0`,
S-box-substituted alone when `keyLength > 6 && i % keyLength == 4`, and
unchanged otherwise. -/
def nextWordTemp (keyLength : Nat) (ks : List (List Nat)) (i : Nat) : List Nat :=
  if i % keyLength = 0 then
    List.zipWith (fun x y => x ^^^ y) (subWord (rotateWord (ks.getD (i - 1) [])))
      (roundConstant.getD (i / keyLength) [])
  else if 6 < keyLength ∧ i % keyLength = 4 then
    subWord (ks.getD (i - 1) [])
  else ks.getD (i - 1) []

/-- Expansion loop of `keyExpansion` (`for i = keyLength; i < keySchedule.length`):
each new word `i` (at index `i = acc.length`) is
`keySchedule[i - keyLength] XOR temp` with `temp` as in `nextWordTemp`. -/
def expandLoop (keyLength total : Nat) (acc : List (List Nat)) : List (List Nat) :=
  if h : acc.length < total then
    expandLoop keyLength total
      (acc ++ [List.zipWith (fun x y => x ^^^ y) (acc.getD (acc.length - keyLength) [])
        (nextWordTemp keyLength acc acc.length)])
  else acc
termination_by total - acc.length
decreasing_by simp; omega

/-- Function `keyExpansion`: validates the key length for the declared word
count, seeds the schedule with the raw key split into 4-byte words, and runs
the expansion loop up to `blockSize * (numberOfRounds + 1)` words. -/
def keyExpansion (key : List Nat) (blockSize keyLength numberOfRounds : Nat) :
    Except AESError (List (List Nat)) :=
  if keyLength = 4 ∧ key.length ≠ 16 then .error .keyLengthMismatch
  else if keyLength = 8 ∧ key.length ≠ 32 then .error .keyLengthMismatch
  else .ok (expandLoop keyLength (blockSize * (numberOfRounds + 1))
    ((List.range keyLength).map fun i =>
      [key.getD (4 * i) 0, key.getD (4 * i + 1) 0, key.getD (4 * i + 2) 0,
       key.getD (4 * i + 3) 0]))

/-- One main round of `cipher`: SubBytes, ShiftRows, MixColumns, AddRoundKey. -/
def cipherRound (keySchedule : List (List Nat)) (round : Nat) (s : List Nat) : List Nat :=
  addRoundKey keySchedule round (mixColumns (shiftRows (subBytes s)))

/-- Body of `cipher` without the input-size check: AddRoundKey(0), the rounds
`1 .. numberOfRounds - 1`, then the final SubBytes, ShiftRows,
AddRoundKey(numberOfRounds).  `copyInputToState`/`copyStateToOutput` are the
identity in flat layout. -/
def cipherRaw (input : List Nat) (keySchedule : List (List Nat)) (numberOfRounds : Nat) :
    List Nat :=
  let s1 := (List.range' 1 (numberOfRounds - 1)).foldl
    (fun st round => cipherRound keySchedule round st)
    (addRoundKey keySchedule 0 input)
  addRoundKey keySchedule numberOfRounds (shiftRows (subBytes s1))

/-- Function `cipher`: rejects any input that is not exactly 16 bytes
(`input isn't a valid size in cipher()`), then runs the round pipeline. -/
def cipher (input : List Nat) (keySchedule : List (List Nat)) (numberOfRounds : Nat) :
    Except AESError (List Nat) :=
  if input.length ≠ 16 then .error .blockSizeMismatch
  else .ok (cipherRaw input keySchedule numberOfRounds)

/-- One main round of `inverseCipher`: InvShiftRows, InvSubBytes, AddRoundKey,
InvMixColumns. -/
def invCipherRound (keySchedule : List (List Nat)) (round : Nat) (s : List Nat) : List Nat :=
  invMixColumns (addRoundKey keySchedule round (invSubBytes (invShiftRows s)))

/-- Function `inverseCipher`: AddRoundKey(numberOfRounds), the inverse rounds
from `numberOfRounds - 1` down to 1, then InvShiftRows, InvSubBytes,
AddRoundKey(0).  Unlike `cipher`, the JS code performs no input-size check;
missing bytes read as `undefined`, which the first XOR coerces to 0, and this
embedding reads them as the `getD` default 0. -/
def inverseCipher (input : List Nat) (keySchedule : List (List Nat)) (numberOfRounds : Nat) :
    List Nat :=
  let s1 := ((List.range' 1 (numberOfRounds - 1)).reverse).foldl
    (fun st round => invCipherRound keySchedule round st)
    (addRoundKey keySchedule numberOfRounds input)
  addRoundKey keySchedule 0 (invSubBytes (invShiftRows s1))

/-- Function `padInput`: appends `blockSize * 4 - size % (blockSize * 4)`
zero bytes, with the final padding byte set to the padding length.  The JS
parameter defaults to 4 when absent or falsy. -/
def padInput (input : List Nat) (blockSize : Nat := 4) : List Nat :=
  let bs := if blockSize = 0 then 4 else blockSize
  let paddingLength := bs * 4 - input.length % (bs * 4)
  input ++ (List.replicate paddingLength 0).set (paddingLength - 1) paddingLength

/-- JS `Buffer.slice(0, e)` end index: a negative `e` counts from the end of
the buffer, and the result is clamped to `[0, len]`. -/
def sliceEndIndex (len : Nat) (e : Int) : Nat :=
  (min (max (if e < 0 then e + len else e) 0) (len : Int)).toNat

/-- Function `removePaddingFromInput`: reads the final byte as the padding
length and returns `input.slice(0, input.length - paddingLength)`, with JS
slice semantics for a negative end index.  No validation is performed. -/
def removePaddingFromInput (input : List Nat) : List Nat :=
  let paddingLength := input.getD (input.length - 1) 0
  input.take (sliceEndIndex input.length ((input.length : Int) - (paddingLength : Int)))

/-- Shared derivation of `(numberOfRounds, keyLength)` from the key size, as
in the heads of `encrypt` and `decrypt`; any other key size leaves both
undefined in JS and later raises a `RangeError` inside `keyExpansion`. -/
def keyParams (keySize : Nat) : Option (Nat × Nat) :=
  if keySize = 128 then some (10, 4)
  else if keySize = 256 then some (14, 8)
  else none

/-- The 16-byte chunk `i` of a buffer: `slice(i * 16, (i + 1) * 16)`. -/
def chunk16 (l : List Nat) (i : Nat) : List Nat :=
  (l.drop (16 * i)).take 16

/-- Function `encrypt` (pure core): expands the key, pads the input, checks
the padded length is a multiple of 16 (the JS "Padded input didn't create a
multiple" abort, which never fires), and concatenates `cipher` of every
16-byte chunk in order. -/
def encrypt (keySize : Nat) (key input : List Nat) : Except AESError (List Nat) :=
  match keyParams keySize with
  | none => .error .invalidKeySize
  | some (numberOfRounds, keyLength) =>
    (keyExpansion key 4 keyLength numberOfRounds).bind fun keySchedule =>
      let paddedInput := padInput input
      if paddedInput.length % 16 ≠ 0 then .error .blockSizeMismatch
      else
        ((List.range (paddedInput.length / 16)).mapM fun i =>
          cipher (chunk16 paddedInput i) keySchedule numberOfRounds).map List.flatten

/-- Function `decrypt` (pure core): expands the key, rejects input whose
length is not a multiple of 16 ("Input isn't a multiple of 16"), inverse-
transforms every chunk except the last, and strips the padding from the
inverse-transformed last chunk, skipping it entirely when nothing remains.
With zero chunks the JS last-block slice `input.slice(-16, 0)` is empty and
is still fed to `inverseCipher`. -/
def decrypt (keySize : Nat) (key input : List Nat) : Except AESError (List Nat) :=
  match keyParams keySize with
  | none => .error .invalidKeySize
  | some (numberOfRounds, keyLength) =>
    (keyExpansion key 4 keyLength numberOfRounds).bind fun keySchedule =>
      if input.length % 16 ≠ 0 then .error .ciphertextAlignment
      else
        let numberOfChunks := input.length / 16
        let middles := (List.range (numberOfChunks - 1)).map fun i =>
          inverseCipher (chunk16 input i) keySchedule numberOfRounds
        let lastOut := removePaddingFromInput
          (inverseCipher (chunk16 input (numberOfChunks - 1)) keySchedule numberOfRounds)
        .ok (middles.flatten ++ lastOut)

/-! Proof-layer definitions. -/

/-- Componentwise XOR on a column of four bytes. -/
def t4xor (x y : Nat × Nat × Nat × Nat) : Nat × Nat × Nat × Nat :=
  (x.1 ^^^ y.1, x.2.1 ^^^ y.2.1, x.2.2.1 ^^^ y.2.2.1, x.2.2.2 ^^^ y.2.2.2)

/-- One column of `mixColumns` as a function of the four column bytes. -/
def mixCol (b0 b1 b2 b3 : Nat) : Nat × Nat × Nat × Nat :=
  (mixRow0 b0 b1 b2 b3, mixRow1 b0 b1 b2 b3, mixRow2 b0 b1 b2 b3, mixRow3 b0 b1 b2 b3)

/-- One column of `invMixColumns` as a function of the four column bytes. -/
def invMixCol (m0 m1 m2 m3 : Nat) : Nat × Nat × Nat × Nat :=
  (invMixRow0 m0 m1 m2 m3, invMixRow1 m0 m1 m2 m3, invMixRow2 m0 m1 m2 m3,
   invMixRow3 m0 m1 m2 m3)

/-- Composition of one `invMixColumns` column after one `mixColumns` column. -/
def mixRoundTripCol (b0 b1 b2 b3 : Nat) : Nat × Nat × Nat × Nat :=
  invMixCol (mixRow0 b0 b1 b2 b3) (mixRow1 b0 b1 b2 b3) (mixRow2 b0 b1 b2 b3)
    (mixRow3 b0 b1 b2 b3)

/-- A well-formed state buffer: 16 bytes, each below 256. -/
def Good (s : List Nat) : Prop := s.length = 16 ∧ ∀ b ∈ s, b < 256

/-- A well-formed key schedule: every word consists of bytes below 256. -/
def KsGood (ks : List (List Nat)) : Prop := ∀ w ∈ ks, ∀ b ∈ w, b < 256

/-- A fully well-formed key schedule: every word is 4 bytes, each below 256. -/
def KsOk (ks : List (List Nat)) : Prop := ∀ w ∈ ks, w.length = 4 ∧ ∀ b ∈ w, b < 256

/-! Concrete vectors used by the test-vector claims and the witnesses. -/

/-- The FIPS-197 example 128-bit key `000102030405060708090a0b0c0d0e0f`. -/
def fipsKey128 : List Nat :=
  [0x00, 0x01, 0x02, 0x03, 0x04, 0x05, 0x06, 0x07,
   0x08, 0x09, 0x0a, 0x0b, 0x0c, 0x0d, 0x0e, 0x0f]

/-- The FIPS-197 example 256-bit key `000102...1e1f`. -/
def fipsKey256 : List Nat :=
  [0x00, 0x01, 0x02, 0x03, 0x04, 0x05, 0x06, 0x07,
   0x08, 0x09, 0x0a, 0x0b, 0x0c, 0x0d, 0x0e, 0x0f,
   0x10, 0x11, 0x12, 0x13, 0x14, 0x15, 0x16, 0x17,
   0x18, 0x19, 0x1a, 0x1b, 0x1c, 0x1d, 0x1e, 0x1f]

/-- The FIPS-197 example plaintext block `00112233445566778899aabbccddeeff`. -/
def fipsBlock : List Nat :=
  [0x00, 0x11, 0x22, 0x33, 0x44, 0x55, 0x66, 0x77,
   0x88, 0x99, 0xaa, 0xbb, 0xcc, 0xdd, 0xee, 0xff]

/-- Expected AES-128 ciphertext `69c4e0d86a7b0430d8cdb78070b4c55a`. -/
def fipsCipher128 : List Nat :=
  [0x69, 0xc4, 0xe0, 0xd8, 0x6a, 0x7b, 0x04, 0x30,
   0xd8, 0xcd, 0xb7, 0x80, 0x70, 0xb4, 0xc5, 0x5a]

/-- Expected AES-256 ciphertext `8ea2b7ca516745bfeafc49904b496089`. -/
def fipsCipher256 : List Nat :=
  [0x8e, 0xa2, 0xb7, 0xca, 0x51, 0x67, 0x45, 0xbf,
   0xea, 0xfc, 0x49, 0x90, 0x4b, 0x49, 0x60, 0x89]

/-- AES-128 encryption of the all-zero block under the all-zero key; its
decryption is the all-zero block, whose final byte 0 exercises the padding
removal path with pad length 0. -/
def zeroKeyCipherZeroBlock : List Nat :=
  [0x66, 0xe9, 0x4b, 0xd4, 0xef, 0x8a, 0x2c, 0x3b,
   0x88, 0x4c, 0xfa, 0x59, 0xca, 0x34, 0x2b, 0x2e]

/-! Bit-level helper lemmas. -/

theorem shiftRight_distrib_xor (x y i : Nat) : (x ^^^ y) >>> i = (x >>> i) ^^^ (y >>> i) := by
  apply Nat.eq_of_testBit_eq
  intro j
  simp [Nat.testBit_shiftRight, Nat.testBit_xor]

theorem shiftLeft_distrib_xor (x y i : Nat) : (x ^^^ y) <<< i = (x <<< i) ^^^ (y <<< i) := by
  apply Nat.eq_of_testBit_eq
  intro j
  simp only [Nat.testBit_shiftLeft, Nat.testBit_xor]
  cases Nat.decLe i j with
  | isTrue h => simp [h]
  | isFalse h => simp [h]

theorem xor_xor_cancel (a b c : Nat) : (a ^^^ c) ^^^ (b ^^^ c) = a ^^^ b := by
  have h : (a ^^^ c) ^^^ (b ^^^ c) = (a ^^^ b) ^^^ (c ^^^ c) := by ac_rfl
  rw [h, Nat.xor_self, Nat.xor_zero]

theorem xor_lt_256 {x y : Nat} (hx : x < 256) (hy : y < 256) : x ^^^ y < 256 :=
  @Nat.xor_lt_two_pow x y 8 hx hy

theorem and_two_pow_ne_iff (z k : Nat) : (z &&& 2 ^ k ≠ 0) ↔ z.testBit k = true := by
  rw [Nat.and_two_pow]
  cases h : z.testBit k <;> simp [h, Nat.pos_iff_ne_zero, Nat.pos_pow_of_pos]

theorem and_128_ne_iff (z : Nat) : (z &&& 0x80 ≠ 0) ↔ z.testBit 7 = true := by
  rw [show (0x80 : Nat) = 2 ^ 7 by norm_num]
  exact and_two_pow_ne_iff z 7

/-- Converts an exhaustively checked boolean scan over `List.range k` into a
bounded universal statement. -/
theorem ball_of_all (k : Nat) (p : Nat → Prop) [DecidablePred p]
    (h : ((List.range k).all fun v => decide (p v)) = true) : ∀ v, v < k → p v := by
  intro v hv
  exact of_decide_eq_true (List.all_eq_true.mp h v (List.mem_range.mpr hv))

/-- Two maps that respect XOR below `2 ^ k`, send 0 to the same value, and
agree on the powers of two below `2 ^ k`, agree everywhere below `2 ^ k`. -/
theorem linear_basis_eq {α : Type} (op : α → α → α) (k : Nat) (f g : Nat → α)
    (hf : ∀ x y, x < 2 ^ k → y < 2 ^ k → f (x ^^^ y) = op (f x) (f y))
    (hg : ∀ x y, x < 2 ^ k → y < 2 ^ k → g (x ^^^ y) = op (g x) (g y))
    (h0 : f 0 = g 0) (hb : ∀ i, i < k → f (2 ^ i) = g (2 ^ i)) :
    ∀ v, v < 2 ^ k → f v = g v := by
  intro v
  induction v using Nat.strong_induction_on with
  | _ v ih =>
    intro hv
    rcases Nat.eq_zero_or_pos v with h0v | hpos
    · subst h0v; exact h0
    have hvne : v ≠ 0 := Nat.pos_iff_ne_zero.mp hpos
    have hik : v.log2 < k := (Nat.log2_lt hvne).mpr hv
    have hle : 2 ^ v.log2 ≤ v := Nat.log2_self_le hvne
    have hlt2 : v < 2 ^ (v.log2 + 1) := Nat.lt_log2_self
    have hpow : 2 ^ (v.log2 + 1) = 2 * 2 ^ v.log2 := by
      rw [Nat.pow_succ, Nat.mul_comm]
    have hdiv : v >>> v.log2 = 1 := by
      rw [Nat.shiftRight_eq_div_pow]
      exact Nat.div_eq_of_lt_le (by omega) (by omega)
    have hwlt : v ^^^ 2 ^ v.log2 < 2 ^ v.log2 := by
      have hpos2 : 0 < 2 ^ v.log2 := Nat.pos_pow_of_pos _ (by omega)
      have h1 : (v ^^^ 2 ^ v.log2) >>> v.log2 = 0 := by
        rw [shiftRight_distrib_xor, hdiv]
        rw [Nat.shiftRight_eq_div_pow, Nat.div_self hpos2]
        exact Nat.xor_self 1
      rw [Nat.shiftRight_eq_div_pow] at h1
      exact (Nat.div_eq_zero_iff hpos2).mp h1
    have hveq : 2 ^ v.log2 ^^^ (v ^^^ 2 ^ v.log2) = v := by
      rw [Nat.xor_comm v, ← Nat.xor_assoc, Nat.xor_self, Nat.zero_xor]
    have h2ik : 2 ^ v.log2 < 2 ^ k := Nat.pow_lt_pow_right (by omega) hik
    have hwk : v ^^^ 2 ^ v.log2 < 2 ^ k := lt_trans hwlt h2ik
    have hwv : v ^^^ 2 ^ v.log2 < v := lt_of_lt_of_le hwlt hle
    calc f v = f (2 ^ v.log2 ^^^ (v ^^^ 2 ^ v.log2)) := by rw [hveq]
      _ = op (f (2 ^ v.log2)) (f (v ^^^ 2 ^ v.log2)) := hf _ _ h2ik hwk
      _ = op (g (2 ^ v.log2)) (g (v ^^^ 2 ^ v.log2)) := by
          rw [hb _ hik, ih _ hwv hwk]
      _ = g (2 ^ v.log2 ^^^ (v ^^^ 2 ^ v.log2)) := (hg _ _ h2ik hwk).symm
      _ = g v := by rw [hveq]

theorem double_eq (z : Nat) :
    double z = (z <<< 1) ^^^ (if z.testBit 7 = true then 0x11b else 0) := by
  rw [double]
  by_cases h : z.testBit 7 = true
  · rw [if_pos ((and_128_ne_iff z).mpr h), if_pos h]
  · rw [if_neg (fun hne => h ((and_128_ne_iff z).mp hne)), if_neg h, Nat.xor_zero]

theorem double_linear (x y : Nat) : double (x ^^^ y) = double x ^^^ double y := by
  simp only [double_eq, Nat.testBit_xor, shiftLeft_distrib_xor]
  by_cases hx : x.testBit 7 = true <;> by_cases hy : y.testBit 7 = true <;>
      simp [hx, hy] <;>
      first
        | rfl
        | ac_rfl
        | (rw [← Nat.xor_assoc, Nat.xor_self, Nat.zero_xor])
        | (exact (xor_xor_cancel _ _ _).symm)
        | (exact xor_xor_cancel _ _ _)

theorem double_zero : double 0 = 0 := by decide

theorem xor_xor_cancel_left (c a b : Nat) : (c ^^^ a) ^^^ (c ^^^ b) = a ^^^ b := by
  have h : (c ^^^ a) ^^^ (c ^^^ b) = (c ^^^ c) ^^^ (a ^^^ b) := by ac_rfl
  rw [h, Nat.xor_self, Nat.zero_xor]

theorem shiftRight_and_one_eq_iff (z k : Nat) : ((z >>> k) &&& 1 = 1) ↔ z.testBit k = true := by
  rw [Nat.and_one_is_mod, Nat.shiftRight_eq_div_pow, Nat.testBit_to_div_mod]
  simp

theorem and_one_ne_iff (z : Nat) : (z &&& 0x01 ≠ 0) ↔ z.testBit 0 = true := by
  rw [Nat.and_one_is_mod, Nat.testBit_to_div_mod]
  simp only [Nat.pow_zero, Nat.div_one, decide_eq_true_eq]
  omega

/-! Closed form of the `multiply` loop. -/

theorem multiplyBits_zero_left (fuel : Nat) : ∀ b, multiplyBits fuel 0 b = 0 := by
  induction fuel with
  | zero => intro b; rfl
  | succ n ih => intro b; simp [multiplyBits, double_zero, ih]

theorem multiplyBits_zero_right (fuel : Nat) : ∀ a, multiplyBits fuel a 0 = 0 := by
  induction fuel with
  | zero => intro a; rfl
  | succ n ih => intro a; simp [multiplyBits, ih]

theorem multiplyLoop_eq_bits (fuel : Nat) : ∀ a b p, b < 256 →
    multiplyLoop fuel a b p = p ^^^ multiplyBits fuel a b := by
  induction fuel with
  | zero => intro a b p _; simp [multiplyLoop, multiplyBits, Nat.xor_zero]
  | succ n ih =>
    intro a b p hb
    by_cases hab : a ≠ 0 ∧ b ≠ 0
    · have hb2 : (b >>> 1) &&& 0x7f = b >>> 1 := by
        rw [show (0x7f : Nat) = 2 ^ 7 - 1 by norm_num, Nat.and_pow_two_sub_one_eq_mod]
        apply Nat.mod_eq_of_lt
        rw [Nat.shiftRight_eq_div_pow]
        omega
      have hb1 : b >>> 1 < 256 := by
        rw [Nat.shiftRight_eq_div_pow]
        omega
      simp only [multiplyLoop, multiplyBits, if_pos hab, hb2]
      rw [show (if a &&& 0x80 ≠ 0 then (a <<< 1) ^^^ 0x011b else a <<< 1) = double a from rfl]
      rw [ih (double a) (b >>> 1) _ hb1]
      by_cases hbit : b &&& 0x01 ≠ 0
      · rw [if_pos hbit, if_pos hbit, Nat.xor_assoc]
      · rw [if_neg hbit, if_neg hbit, Nat.zero_xor]
    · simp only [multiplyLoop, multiplyBits, if_neg hab]
      rcases Decidable.not_and_iff_or_not.mp hab with h0 | h0
      · have ha : a = 0 := Decidable.of_not_not h0
        subst ha
        rw [show (if b &&& 0x01 ≠ 0 then (0 : Nat) else 0) = 0 from by simp,
          double_zero, multiplyBits_zero_left]
        simp
      · have hbz : b = 0 := Decidable.of_not_not h0
        subst hbz
        simp [multiplyBits_zero_right]

theorem multiplyBits_linear (fuel : Nat) : ∀ a x y,
    multiplyBits fuel a (x ^^^ y) = multiplyBits fuel a x ^^^ multiplyBits fuel a y := by
  induction fuel with
  | zero => intro a x y; simp [multiplyBits]
  | succ n ih =>
    intro a x y
    simp only [multiplyBits, and_one_ne_iff, Nat.testBit_xor, shiftRight_distrib_xor, ih]
    by_cases hx : x.testBit 0 = true <;> by_cases hy : y.testBit 0 = true <;>
        simp [hx, hy] <;>
        first
          | rfl
          | ac_rfl
          | (exact xor_xor_cancel_left _ _ _)
          | (exact (xor_xor_cancel_left _ _ _).symm)
          | (rw [← Nat.xor_assoc, Nat.xor_self, Nat.zero_xor])

theorem multiplyBits_pow (fuel i : Nat) (a : Nat) (h : i < fuel) :
    multiplyBits fuel a (2 ^ i) = double^[i] a := by
  induction i generalizing fuel a with
  | zero =>
    obtain ⟨n, rfl⟩ : ∃ n, fuel = n + 1 := ⟨fuel - 1, by omega⟩
    simp [multiplyBits, multiplyBits_zero_right]
  | succ i ih =>
    obtain ⟨n, rfl⟩ : ∃ n, fuel = n + 1 := ⟨fuel - 1, by omega⟩
    have heven : ¬(2 ^ (i + 1) &&& 0x01 ≠ 0) := by
      rw [and_one_ne_iff, Nat.testBit_to_div_mod]
      simp only [Nat.pow_zero, Nat.div_one, decide_eq_true_eq]
      rw [Nat.pow_succ]
      omega
    have hshift : (2 : Nat) ^ (i + 1) >>> 1 = 2 ^ i := by
      rw [Nat.shiftRight_eq_div_pow, Nat.pow_one, Nat.pow_succ]
      omega
    simp only [multiplyBits, if_neg heven, hshift, Nat.zero_xor]
    rw [ih n (double a) (by omega), Function.iterate_succ_apply]

theorem double_lt {x : Nat} (hx : x < 256) : double x < 256 :=
  ball_of_all 256 (fun v => double v < 256) (by decide) x hx

theorem multiplyBits_lt (fuel : Nat) : ∀ a b, a < 256 → multiplyBits fuel a b < 256 := by
  induction fuel with
  | zero => intro a b _; norm_num [multiplyBits]
  | succ n ih =>
    intro a b ha
    simp only [multiplyBits]
    apply xor_lt_256
    · split
      · exact ha
      · norm_num
    · exact ih (double a) (b >>> 1) (double_lt ha)

/-! Facts about the spec-modelled polynomial multiplication and reduction. -/

theorem gfPolyMulLoop_zero_right (fuel : Nat) : ∀ a, gfPolyMulLoop fuel a 0 = 0 := by
  induction fuel with
  | zero => intro a; rfl
  | succ n ih => intro a; simp [gfPolyMulLoop, ih]

theorem gfPolyMulLoop_zero_left (fuel : Nat) : ∀ b, gfPolyMulLoop fuel 0 b = 0 := by
  induction fuel with
  | zero => intro b; rfl
  | succ n ih => intro b; simp [gfPolyMulLoop, ih, Nat.zero_shiftLeft]

theorem and_one_eq_iff (z : Nat) : (z &&& 1 = 1) ↔ z.testBit 0 = true := by
  rw [Nat.and_one_is_mod, Nat.testBit_to_div_mod]
  simp only [Nat.pow_zero, Nat.div_one, decide_eq_true_eq]

theorem gfPolyMulLoop_linear_right (fuel : Nat) : ∀ a x y,
    gfPolyMulLoop fuel a (x ^^^ y) = gfPolyMulLoop fuel a x ^^^ gfPolyMulLoop fuel a y := by
  induction fuel with
  | zero => intro a x y; simp [gfPolyMulLoop]
  | succ n ih =>
    intro a x y
    simp only [gfPolyMulLoop, and_one_eq_iff, Nat.testBit_xor, shiftRight_distrib_xor, ih]
    by_cases hx : x.testBit 0 = true <;> by_cases hy : y.testBit 0 = true <;>
        simp [hx, hy] <;>
        first
          | rfl
          | ac_rfl
          | (exact xor_xor_cancel_left _ _ _)
          | (exact (xor_xor_cancel_left _ _ _).symm)
          | (rw [← Nat.xor_assoc, Nat.xor_self, Nat.zero_xor])

theorem gfPolyMulLoop_linear_left (fuel : Nat) : ∀ x y b,
    gfPolyMulLoop fuel (x ^^^ y) b = gfPolyMulLoop fuel x b ^^^ gfPolyMulLoop fuel y b := by
  induction fuel with
  | zero => intro x y b; simp [gfPolyMulLoop]
  | succ n ih =>
    intro x y b
    simp only [gfPolyMulLoop, shiftLeft_distrib_xor, ih]
    by_cases hb : b &&& 1 = 1
    · simp only [if_pos hb]
      ac_rfl
    · simp only [if_neg hb, Nat.zero_xor]

theorem gfPolyMulLoop_pow (fuel i : Nat) (a : Nat) (h : i < fuel) :
    gfPolyMulLoop fuel a (2 ^ i) = a <<< i := by
  induction i generalizing fuel a with
  | zero =>
    obtain ⟨n, rfl⟩ : ∃ n, fuel = n + 1 := ⟨fuel - 1, by omega⟩
    simp [gfPolyMulLoop, gfPolyMulLoop_zero_right, Nat.shiftLeft_zero]
  | succ i ih =>
    obtain ⟨n, rfl⟩ : ∃ n, fuel = n + 1 := ⟨fuel - 1, by omega⟩
    have heven : ¬(2 ^ (i + 1) &&& 1 = 1) := by
      rw [Nat.and_one_is_mod, Nat.pow_succ]
      omega
    have hshift : (2 : Nat) ^ (i + 1) >>> 1 = 2 ^ i := by
      rw [Nat.shiftRight_eq_div_pow, Nat.pow_one, Nat.pow_succ]
      omega
    simp only [gfPolyMulLoop, if_neg heven, hshift, Nat.zero_xor]
    rw [ih n (a <<< 1) (by omega), ← Nat.shiftLeft_add]
    rw [Nat.add_comm]

theorem gfReduceGo_linear (k : Nat) : ∀ x y,
    gfReduceGo k (x ^^^ y) = gfReduceGo k x ^^^ gfReduceGo k y := by
  induction k with
  | zero => intro x y; rfl
  | succ n ih =>
    intro x y
    simp only [gfReduceGo, shiftRight_and_one_eq_iff, Nat.testBit_xor]
    rw [← ih]
    congr 1
    by_cases hx : x.testBit (8 + n) = true <;> by_cases hy : y.testBit (8 + n) = true <;>
        simp [hx, hy] <;>
        first
          | ac_rfl
          | (exact xor_xor_cancel _ _ _)
          | (exact (xor_xor_cancel _ _ _).symm)

theorem gfReduce_linear (x y : Nat) : gfReduce (x ^^^ y) = gfReduce x ^^^ gfReduce y :=
  gfReduceGo_linear 8 x y

theorem gfReduce_zero : gfReduce 0 = 0 := by decide

theorem gfReduce_id {x : Nat} (h : x < 256) : gfReduce x = x := by
  have hb : ∀ i, i < 8 → gfReduce (2 ^ i) = 2 ^ i :=
    ball_of_all 8 (fun i => gfReduce (2 ^ i) = 2 ^ i) (by decide)
  exact linear_basis_eq (fun u v => u ^^^ v) 8 gfReduce (fun v => v)
    (fun a b _ _ => gfReduce_linear a b) (fun _ _ _ _ => rfl) gfReduce_zero hb x h

theorem gfReduce_shift {x : Nat} (h : x < 2 ^ 15) :
    gfReduce (x <<< 1) = double (gfReduce x) := by
  have hb : ∀ i, i < 15 → gfReduce (2 ^ i <<< 1) = double (gfReduce (2 ^ i)) :=
    ball_of_all 15 (fun i => gfReduce (2 ^ i <<< 1) = double (gfReduce (2 ^ i))) (by decide)
  refine linear_basis_eq (fun u v => u ^^^ v) 15 (fun z => gfReduce (z <<< 1))
    (fun z => double (gfReduce z)) ?_ ?_ ?_ hb x h
  · intro a b _ _
    dsimp only
    rw [shiftLeft_distrib_xor, gfReduce_linear]
  · intro a b _ _
    dsimp only
    rw [gfReduce_linear, double_linear]
  · simp [Nat.zero_shiftLeft, gfReduce_zero, double_zero]

theorem iterate_double_eq {a : Nat} (ha : a < 256) : ∀ i, i < 8 →
    double^[i] a = gfReduce (a <<< i) := by
  intro i
  induction i with
  | zero =>
    intro _
    simp [Nat.shiftLeft_zero, gfReduce_id ha]
  | succ n ih =>
    intro h
    have hbound : a <<< n < 2 ^ 15 := by
      rw [Nat.shiftLeft_eq]
      have h1 : (2 : Nat) ^ n ≤ 128 := by
        calc (2 : Nat) ^ n ≤ 2 ^ 7 := Nat.pow_le_pow_right (by omega) (by omega)
          _ = 128 := by norm_num
      calc a * 2 ^ n ≤ 255 * 128 := Nat.mul_le_mul (by omega) h1
        _ < 2 ^ 15 := by norm_num
    rw [Function.iterate_succ_apply', ih (by omega), ← gfReduce_shift hbound,
      ← Nat.shiftLeft_add]

/-! The `multiply` contract. -/

theorem multiply_eq_bits {a b : Nat} (hb : b < 256) : multiply a b = multiplyBits 8 a b := by
  rw [multiply, multiplyLoop_eq_bits 8 a b 0 hb, Nat.zero_xor]

theorem multiply_zero_right (a : Nat) : multiply a 0 = 0 := by
  rw [multiply_eq_bits (by norm_num), multiplyBits_zero_right]

theorem multiply_one_right (a : Nat) : multiply a 1 = a := by
  rw [multiply_eq_bits (by norm_num),
    show (1 : Nat) = 2 ^ 0 by norm_num, multiplyBits_pow 8 0 a (by norm_num)]
  rfl

theorem multiply_two_right (a : Nat) : multiply a 2 = double a := by
  rw [multiply_eq_bits (by norm_num),
    show (2 : Nat) = 2 ^ 1 by norm_num, multiplyBits_pow 8 1 a (by norm_num)]
  rfl

theorem multiply_linear_right (a : Nat) {x y : Nat} (hx : x < 256) (hy : y < 256) :
    multiply a (x ^^^ y) = multiply a x ^^^ multiply a y := by
  rw [multiply_eq_bits (xor_lt_256 hx hy), multiply_eq_bits hx, multiply_eq_bits hy,
    multiplyBits_linear]

theorem multiply_lt {a b : Nat} (ha : a < 256) (hb : b < 256) : multiply a b < 256 := by
  rw [multiply_eq_bits hb]
  exact multiplyBits_lt 8 a b ha

theorem multiply_eq_gfMulRef {a b : Nat} (ha : a < 256) (hb : b < 256) :
    multiply a b = gfMulRef a b := by
  refine linear_basis_eq (fun u v => u ^^^ v) 8 (fun z => multiply a z)
    (fun z => gfMulRef a z) ?_ ?_ ?_ ?_ b hb
  · intro x y hx hy
    exact multiply_linear_right a hx hy
  · intro x y _ _
    dsimp only
    simp only [gfMulRef, gfPolyMul]
    rw [gfPolyMulLoop_linear_right, gfReduce_linear]
  · dsimp only
    rw [multiply_zero_right]
    simp only [gfMulRef, gfPolyMul]
    rw [gfPolyMulLoop_zero_right, gfReduce_zero]
  · intro i hi
    dsimp only
    have h2i : (2 : Nat) ^ i < 256 := by
      calc (2 : Nat) ^ i < 2 ^ 8 := Nat.pow_lt_pow_right (by omega) hi
        _ = 256 := by norm_num
    rw [multiply_eq_bits h2i, multiplyBits_pow 8 i a hi]
    simp only [gfMulRef, gfPolyMul]
    rw [gfPolyMulLoop_pow 8 i a hi]
    exact iterate_double_eq ha i hi

theorem gfPolyMul_comm {a b : Nat} (ha : a < 256) (hb : b < 256) :
    gfPolyMul a b = gfPolyMul b a := by
  have hinner : ∀ i, i < 8 → gfPolyMul (2 ^ i) b = gfPolyMul b (2 ^ i) := by
    intro i hi
    refine linear_basis_eq (fun u v => u ^^^ v) 8 (fun z => gfPolyMul (2 ^ i) z)
      (fun z => gfPolyMul z (2 ^ i)) ?_ ?_ ?_ ?_ b hb
    · intro x y _ _
      exact gfPolyMulLoop_linear_right 8 (2 ^ i) x y
    · intro x y _ _
      exact gfPolyMulLoop_linear_left 8 x y (2 ^ i)
    · simp only [gfPolyMul]
      rw [gfPolyMulLoop_zero_right, gfPolyMulLoop_zero_left]
    · intro j hj
      simp only [gfPolyMul]
      rw [gfPolyMulLoop_pow 8 j (2 ^ i) hj,
        gfPolyMulLoop_pow 8 i (2 ^ j) hi, Nat.shiftLeft_eq, Nat.shiftLeft_eq]
      ring
  refine linear_basis_eq (fun u v => u ^^^ v) 8 (fun z => gfPolyMul z b)
    (fun z => gfPolyMul b z) ?_ ?_ ?_ hinner a ha
  · intro x y _ _
    exact gfPolyMulLoop_linear_left 8 x y b
  · intro x y _ _
    exact gfPolyMulLoop_linear_right 8 b x y
  · simp only [gfPolyMul]
    rw [gfPolyMulLoop_zero_right, gfPolyMulLoop_zero_left]

theorem multiply_comm_bytes {a b : Nat} (ha : a < 256) (hb : b < 256) :
    multiply a b = multiply b a := by
  rw [multiply_eq_gfMulRef ha hb, multiply_eq_gfMulRef hb ha, gfMulRef, gfMulRef,
    gfPolyMul_comm ha hb]

/-! MixColumns and its inverse, column by column. -/

theorem mixRow0_linear (x0 x1 x2 x3 y0 y1 y2 y3 : Nat) :
    mixRow0 (x0 ^^^ y0) (x1 ^^^ y1) (x2 ^^^ y2) (x3 ^^^ y3) =
      mixRow0 x0 x1 x2 x3 ^^^ mixRow0 y0 y1 y2 y3 := by
  simp only [mixRow0, double_linear]
  ac_rfl

theorem mixRow1_linear (x0 x1 x2 x3 y0 y1 y2 y3 : Nat) :
    mixRow1 (x0 ^^^ y0) (x1 ^^^ y1) (x2 ^^^ y2) (x3 ^^^ y3) =
      mixRow1 x0 x1 x2 x3 ^^^ mixRow1 y0 y1 y2 y3 := by
  simp only [mixRow1, double_linear]
  ac_rfl

theorem mixRow2_linear (x0 x1 x2 x3 y0 y1 y2 y3 : Nat) :
    mixRow2 (x0 ^^^ y0) (x1 ^^^ y1) (x2 ^^^ y2) (x3 ^^^ y3) =
      mixRow2 x0 x1 x2 x3 ^^^ mixRow2 y0 y1 y2 y3 := by
  simp only [mixRow2, double_linear]
  ac_rfl

theorem mixRow3_linear (x0 x1 x2 x3 y0 y1 y2 y3 : Nat) :
    mixRow3 (x0 ^^^ y0) (x1 ^^^ y1) (x2 ^^^ y2) (x3 ^^^ y3) =
      mixRow3 x0 x1 x2 x3 ^^^ mixRow3 y0 y1 y2 y3 := by
  simp only [mixRow3, double_linear]
  ac_rfl

theorem mixRow0_lt {a0 a1 a2 a3 : Nat} (h0 : a0 < 256) (h1 : a1 < 256) (h2 : a2 < 256)
    (h3 : a3 < 256) : mixRow0 a0 a1 a2 a3 < 256 :=
  xor_lt_256 (xor_lt_256 (xor_lt_256 (xor_lt_256 (double_lt h0) h1) (double_lt h1)) h2) h3

theorem mixRow1_lt {a0 a1 a2 a3 : Nat} (h0 : a0 < 256) (h1 : a1 < 256) (h2 : a2 < 256)
    (h3 : a3 < 256) : mixRow1 a0 a1 a2 a3 < 256 :=
  xor_lt_256 (xor_lt_256 (xor_lt_256 (xor_lt_256 h0 (double_lt h1)) h2) (double_lt h2)) h3

theorem mixRow2_lt {a0 a1 a2 a3 : Nat} (h0 : a0 < 256) (h1 : a1 < 256) (h2 : a2 < 256)
    (h3 : a3 < 256) : mixRow2 a0 a1 a2 a3 < 256 :=
  xor_lt_256 (xor_lt_256 (xor_lt_256 (xor_lt_256 h0 h1) (double_lt h2)) h3) (double_lt h3)

theorem mixRow3_lt {a0 a1 a2 a3 : Nat} (h0 : a0 < 256) (h1 : a1 < 256) (h2 : a2 < 256)
    (h3 : a3 < 256) : mixRow3 a0 a1 a2 a3 < 256 :=
  xor_lt_256 (xor_lt_256 (xor_lt_256 (xor_lt_256 h0 (double_lt h0)) h1) h2) (double_lt h3)

theorem invMixCol_linear {m0 m1 m2 m3 n0 n1 n2 n3 : Nat}
    (hm0 : m0 < 256) (hm1 : m1 < 256) (hm2 : m2 < 256) (hm3 : m3 < 256)
    (hn0 : n0 < 256) (hn1 : n1 < 256) (hn2 : n2 < 256) (hn3 : n3 < 256) :
    invMixCol (m0 ^^^ n0) (m1 ^^^ n1) (m2 ^^^ n2) (m3 ^^^ n3) =
      t4xor (invMixCol m0 m1 m2 m3) (invMixCol n0 n1 n2 n3) := by
  simp only [invMixCol, t4xor, invMixRow0, invMixRow1, invMixRow2, invMixRow3,
    multiply_linear_right _ hm0 hn0, multiply_linear_right _ hm1 hn1,
    multiply_linear_right _ hm2 hn2, multiply_linear_right _ hm3 hn3]
  refine congrArg₂ (fun u v => (u, v)) ?_ (congrArg₂ (fun u v => (u, v)) ?_
    (congrArg₂ (fun u v => (u, v)) ?_ ?_)) <;> ac_rfl

theorem mixRoundTripCol_linear {x0 x1 x2 x3 y0 y1 y2 y3 : Nat}
    (hx0 : x0 < 256) (hx1 : x1 < 256) (hx2 : x2 < 256) (hx3 : x3 < 256)
    (hy0 : y0 < 256) (hy1 : y1 < 256) (hy2 : y2 < 256) (hy3 : y3 < 256) :
    mixRoundTripCol (x0 ^^^ y0) (x1 ^^^ y1) (x2 ^^^ y2) (x3 ^^^ y3) =
      t4xor (mixRoundTripCol x0 x1 x2 x3) (mixRoundTripCol y0 y1 y2 y3) := by
  unfold mixRoundTripCol
  rw [mixRow0_linear, mixRow1_linear, mixRow2_linear, mixRow3_linear]
  exact invMixCol_linear (mixRow0_lt hx0 hx1 hx2 hx3) (mixRow1_lt hx0 hx1 hx2 hx3)
    (mixRow2_lt hx0 hx1 hx2 hx3) (mixRow3_lt hx0 hx1 hx2 hx3)
    (mixRow0_lt hy0 hy1 hy2 hy3) (mixRow1_lt hy0 hy1 hy2 hy3)
    (mixRow2_lt hy0 hy1 hy2 hy3) (mixRow3_lt hy0 hy1 hy2 hy3)

theorem mixRT_basis0_all :
    ((List.range 8).all fun t => decide (mixRoundTripCol (2 ^ t) 0 0 0 = ((2 ^ t : Nat), 0, 0, 0))) = true := by
  decide!

theorem mixRT_basis0 : ∀ t, t < 8 → mixRoundTripCol (2 ^ t) 0 0 0 = ((2 ^ t : Nat), 0, 0, 0) :=
  ball_of_all 8 (fun t => mixRoundTripCol (2 ^ t) 0 0 0 = ((2 ^ t : Nat), 0, 0, 0)) mixRT_basis0_all

theorem mixRT_basis1_all :
    ((List.range 8).all fun t => decide (mixRoundTripCol 0 (2 ^ t) 0 0 = (0, (2 ^ t : Nat), 0, 0))) = true := by
  decide!

theorem mixRT_basis1 : ∀ t, t < 8 → mixRoundTripCol 0 (2 ^ t) 0 0 = (0, (2 ^ t : Nat), 0, 0) :=
  ball_of_all 8 (fun t => mixRoundTripCol 0 (2 ^ t) 0 0 = (0, (2 ^ t : Nat), 0, 0)) mixRT_basis1_all

theorem mixRT_basis2_all :
    ((List.range 8).all fun t => decide (mixRoundTripCol 0 0 (2 ^ t) 0 = (0, 0, (2 ^ t : Nat), 0))) = true := by
  decide!

theorem mixRT_basis2 : ∀ t, t < 8 → mixRoundTripCol 0 0 (2 ^ t) 0 = (0, 0, (2 ^ t : Nat), 0) :=
  ball_of_all 8 (fun t => mixRoundTripCol 0 0 (2 ^ t) 0 = (0, 0, (2 ^ t : Nat), 0)) mixRT_basis2_all

theorem mixRT_basis3_all :
    ((List.range 8).all fun t => decide (mixRoundTripCol 0 0 0 (2 ^ t) = (0, 0, 0, (2 ^ t : Nat)))) = true := by
  decide!

theorem mixRT_basis3 : ∀ t, t < 8 → mixRoundTripCol 0 0 0 (2 ^ t) = (0, 0, 0, (2 ^ t : Nat)) :=
  ball_of_all 8 (fun t => mixRoundTripCol 0 0 0 (2 ^ t) = (0, 0, 0, (2 ^ t : Nat))) mixRT_basis3_all

theorem mixRT_e0 {v : Nat} (hv : v < 256) : mixRoundTripCol v 0 0 0 = (v, 0, 0, 0) := by
  refine linear_basis_eq t4xor 8 (fun z => mixRoundTripCol z 0 0 0)
    (fun z => (z, 0, 0, 0)) ?_ ?_ ?_ mixRT_basis0 v hv
  · intro x y hx hy
    dsimp only
    have hz : (0 : Nat) < 256 := by norm_num
    simpa using @mixRoundTripCol_linear x 0 0 0 y 0 0 0 hx hz hz hz hy hz hz hz
  · intro x y _ _
    simp [t4xor]
  · show mixRoundTripCol 0 0 0 0 = ((0 : Nat), 0, 0, 0)
    decide!

theorem mixRT_e1 {v : Nat} (hv : v < 256) : mixRoundTripCol 0 v 0 0 = (0, v, 0, 0) := by
  refine linear_basis_eq t4xor 8 (fun z => mixRoundTripCol 0 z 0 0)
    (fun z => (0, z, 0, 0)) ?_ ?_ ?_ mixRT_basis1 v hv
  · intro x y hx hy
    dsimp only
    have hz : (0 : Nat) < 256 := by norm_num
    simpa using @mixRoundTripCol_linear 0 x 0 0 0 y 0 0 hz hx hz hz hz hy hz hz
  · intro x y _ _
    simp [t4xor]
  · show mixRoundTripCol 0 0 0 0 = ((0 : Nat), 0, 0, 0)
    decide!

theorem mixRT_e2 {v : Nat} (hv : v < 256) : mixRoundTripCol 0 0 v 0 = (0, 0, v, 0) := by
  refine linear_basis_eq t4xor 8 (fun z => mixRoundTripCol 0 0 z 0)
    (fun z => (0, 0, z, 0)) ?_ ?_ ?_ mixRT_basis2 v hv
  · intro x y hx hy
    dsimp only
    have hz : (0 : Nat) < 256 := by norm_num
    simpa using @mixRoundTripCol_linear 0 0 x 0 0 0 y 0 hz hz hx hz hz hz hy hz
  · intro x y _ _
    simp [t4xor]
  · show mixRoundTripCol 0 0 0 0 = ((0 : Nat), 0, 0, 0)
    decide!

theorem mixRT_e3 {v : Nat} (hv : v < 256) : mixRoundTripCol 0 0 0 v = (0, 0, 0, v) := by
  refine linear_basis_eq t4xor 8 (fun z => mixRoundTripCol 0 0 0 z)
    (fun z => (0, 0, 0, z)) ?_ ?_ ?_ mixRT_basis3 v hv
  · intro x y hx hy
    dsimp only
    have hz : (0 : Nat) < 256 := by norm_num
    simpa using @mixRoundTripCol_linear 0 0 0 x 0 0 0 y hz hz hz hx hz hz hz hy
  · intro x y _ _
    simp [t4xor]
  · show mixRoundTripCol 0 0 0 0 = ((0 : Nat), 0, 0, 0)
    decide!

theorem mixRoundTripCol_id {b0 b1 b2 b3 : Nat} (h0 : b0 < 256) (h1 : b1 < 256)
    (h2 : b2 < 256) (h3 : b3 < 256) :
    mixRoundTripCol b0 b1 b2 b3 = (b0, b1, b2, b3) := by
  have hz : (0 : Nat) < 256 := by norm_num
  have s1 : mixRoundTripCol b0 b1 b2 b3 =
      t4xor (mixRoundTripCol b0 0 0 0) (mixRoundTripCol 0 b1 b2 b3) := by
    simpa using @mixRoundTripCol_linear b0 0 0 0 0 b1 b2 b3 h0 hz hz hz hz h1 h2 h3
  have s2 : mixRoundTripCol 0 b1 b2 b3 =
      t4xor (mixRoundTripCol 0 b1 0 0) (mixRoundTripCol 0 0 b2 b3) := by
    simpa using @mixRoundTripCol_linear 0 b1 0 0 0 0 b2 b3 hz h1 hz hz hz hz h2 h3
  have s3 : mixRoundTripCol 0 0 b2 b3 =
      t4xor (mixRoundTripCol 0 0 b2 0) (mixRoundTripCol 0 0 0 b3) := by
    simpa using @mixRoundTripCol_linear 0 0 b2 0 0 0 0 b3 hz hz h2 hz hz hz hz h3
  rw [s1, s2, s3, mixRT_e0 h0, mixRT_e1 h1, mixRT_e2 h2, mixRT_e3 h3]
  simp [t4xor]

theorem invMix_mix_components {b0 b1 b2 b3 : Nat} (h0 : b0 < 256) (h1 : b1 < 256)
    (h2 : b2 < 256) (h3 : b3 < 256) :
    invMixRow0 (mixRow0 b0 b1 b2 b3) (mixRow1 b0 b1 b2 b3) (mixRow2 b0 b1 b2 b3)
        (mixRow3 b0 b1 b2 b3) = b0 ∧
      invMixRow1 (mixRow0 b0 b1 b2 b3) (mixRow1 b0 b1 b2 b3) (mixRow2 b0 b1 b2 b3)
        (mixRow3 b0 b1 b2 b3) = b1 ∧
      invMixRow2 (mixRow0 b0 b1 b2 b3) (mixRow1 b0 b1 b2 b3) (mixRow2 b0 b1 b2 b3)
        (mixRow3 b0 b1 b2 b3) = b2 ∧
      invMixRow3 (mixRow0 b0 b1 b2 b3) (mixRow1 b0 b1 b2 b3) (mixRow2 b0 b1 b2 b3)
        (mixRow3 b0 b1 b2 b3) = b3 := by
  have h := mixRoundTripCol_id h0 h1 h2 h3
  rw [mixRoundTripCol, invMixCol, Prod.mk.injEq, Prod.mk.injEq, Prod.mk.injEq] at h
  exact ⟨h.1, h.2.1, h.2.2.1, h.2.2.2⟩

/-! List-level facts about the state operations. -/

theorem getD_range16_map (f : Nat → Nat) {i : Nat} (h : i < 16) :
    ((List.range 16).map f).getD i 0 = f i := by
  have hlen : i < ((List.range 16).map f).length := by
    simp [h]
  rw [List.getD_eq_getElem _ _ hlen]
  simp

theorem getD_lt_of_forall {l : List Nat} (h : ∀ b ∈ l, b < 256) (i : Nat) :
    l.getD i 0 < 256 := by
  by_cases hi : i < l.length
  · rw [List.getD_eq_getElem _ _ hi]
    exact h _ (List.getElem_mem hi)
  · rw [List.getD_eq_default _ _ (by omega)]
    omega

theorem ks_byte_lt {ks : List (List Nat)} (h : KsGood ks) (j t : Nat) :
    (ks.getD j []).getD t 0 < 256 := by
  by_cases hj : j < ks.length
  · rw [List.getD_eq_getElem _ _ hj]
    exact getD_lt_of_forall (h _ (List.getElem_mem hj)) t
  · rw [show ks.getD j [] = [] from List.getD_eq_default _ _ (by omega)]
    simp

theorem mem_of_range16_map {g : Nat → Nat} {x : Nat}
    (hx : x ∈ (List.range 16).map g) : ∃ i, i < 16 ∧ x = g i := by
  rw [List.mem_map] at hx
  obtain ⟨i, hi, rfl⟩ := hx
  exact ⟨i, List.mem_range.mp hi, rfl⟩

theorem sBox_mem_lt : ∀ v ∈ sBox, v < 256 := by decide

theorem invSBox_mem_lt : ∀ v ∈ invSBox, v < 256 := by decide

theorem sbox_inv_all :
    ((List.range 256).all fun b => decide (invSBox.getD (sBox.getD b 0) 0 = b)) = true := by
  decide!

theorem sbox_inv : ∀ b, b < 256 → invSBox.getD (sBox.getD b 0) 0 = b :=
  ball_of_all 256 (fun b => invSBox.getD (sBox.getD b 0) 0 = b) sbox_inv_all

theorem good_subBytes {s : List Nat} (h : Good s) : Good (subBytes s) := by
  refine ⟨by simp [subBytes, h.1], ?_⟩
  intro b hb
  rw [subBytes, List.mem_map] at hb
  obtain ⟨a, _, rfl⟩ := hb
  exact getD_lt_of_forall sBox_mem_lt a

theorem good_shiftRows {s : List Nat} (h : ∀ b ∈ s, b < 256) : Good (shiftRows s) := by
  refine ⟨by simp [shiftRows], ?_⟩
  intro b hb
  obtain ⟨i, _, rfl⟩ := mem_of_range16_map hb
  exact getD_lt_of_forall h _

theorem good_mixColumns {s : List Nat} (h : ∀ b ∈ s, b < 256) : Good (mixColumns s) := by
  refine ⟨by simp [mixColumns], ?_⟩
  intro b hb
  obtain ⟨i, _, rfl⟩ := mem_of_range16_map hb
  split
  · exact mixRow0_lt (getD_lt_of_forall h _) (getD_lt_of_forall h _)
      (getD_lt_of_forall h _) (getD_lt_of_forall h _)
  · split
    · exact mixRow1_lt (getD_lt_of_forall h _) (getD_lt_of_forall h _)
        (getD_lt_of_forall h _) (getD_lt_of_forall h _)
    · split
      · exact mixRow2_lt (getD_lt_of_forall h _) (getD_lt_of_forall h _)
          (getD_lt_of_forall h _) (getD_lt_of_forall h _)
      · exact mixRow3_lt (getD_lt_of_forall h _) (getD_lt_of_forall h _)
          (getD_lt_of_forall h _) (getD_lt_of_forall h _)

theorem good_addRoundKey {ks : List (List Nat)} {s : List Nat} (hks : KsGood ks)
    (h : ∀ b ∈ s, b < 256) (r : Nat) : Good (addRoundKey ks r s) := by
  refine ⟨by simp [addRoundKey], ?_⟩
  intro b hb
  obtain ⟨i, _, rfl⟩ := mem_of_range16_map hb
  exact xor_lt_256 (getD_lt_of_forall h _) (ks_byte_lt hks _ _)

theorem good_cipherRound {ks : List (List Nat)} {s : List Nat} (hks : KsGood ks)
    (hs : Good s) (r : Nat) : Good (cipherRound ks r s) :=
  good_addRoundKey hks (good_mixColumns (good_shiftRows (good_subBytes hs).2).2).2 r

/-! Each inverse state operation undoes its forward counterpart. -/

theorem invSubBytes_subBytes {s : List Nat} (h : ∀ b ∈ s, b < 256) :
    invSubBytes (subBytes s) = s := by
  induction s with
  | nil => rfl
  | cons a t ih =>
    have ha : a < 256 := h a (List.mem_cons_self a t)
    have ht : ∀ b ∈ t, b < 256 := fun b hb => h b (List.mem_cons_of_mem _ hb)
    have hih := ih ht
    simp only [subBytes, invSubBytes, List.map_cons] at hih ⊢
    rw [sbox_inv a ha, hih]

theorem invShiftRows_shiftRows {s : List Nat} (h : s.length = 16) :
    invShiftRows (shiftRows s) = s := by
  apply List.ext_getElem
  · simp [invShiftRows, h]
  intro i hi1 hi2
  have h16 : i < 16 := by omega
  simp only [invShiftRows, List.getElem_map, List.getElem_range]
  rw [shiftRows, getD_range16_map _ (by omega : i % 4 + 4 * ((i / 4 + 4 - i % 4) % 4) < 16)]
  have hidx : (i % 4 + 4 * ((i / 4 + 4 - i % 4) % 4)) % 4 +
      4 * (((i % 4 + 4 * ((i / 4 + 4 - i % 4) % 4)) / 4 +
        (i % 4 + 4 * ((i / 4 + 4 - i % 4) % 4)) % 4) % 4) = i := by
    omega
  rw [hidx, List.getD_eq_getElem _ _ (by omega)]

theorem addRoundKey_addRoundKey {ks : List (List Nat)} {s : List Nat} (r : Nat)
    (h : s.length = 16) : addRoundKey ks r (addRoundKey ks r s) = s := by
  apply List.ext_getElem
  · simp [addRoundKey, h]
  intro i hi1 hi2
  have h16 : i < 16 := by omega
  simp only [addRoundKey, List.getElem_map, List.getElem_range]
  rw [getD_range16_map _ h16, Nat.xor_cancel_right, List.getD_eq_getElem _ _ (by omega)]

theorem mixColumns_getD {s : List Nat} {j : Nat} (hj : j < 16) :
    (mixColumns s).getD j 0 =
      (if j % 4 = 0 then
        mixRow0 (s.getD (4 * (j / 4)) 0) (s.getD (4 * (j / 4) + 1) 0)
          (s.getD (4 * (j / 4) + 2) 0) (s.getD (4 * (j / 4) + 3) 0)
      else if j % 4 = 1 then
        mixRow1 (s.getD (4 * (j / 4)) 0) (s.getD (4 * (j / 4) + 1) 0)
          (s.getD (4 * (j / 4) + 2) 0) (s.getD (4 * (j / 4) + 3) 0)
      else if j % 4 = 2 then
        mixRow2 (s.getD (4 * (j / 4)) 0) (s.getD (4 * (j / 4) + 1) 0)
          (s.getD (4 * (j / 4) + 2) 0) (s.getD (4 * (j / 4) + 3) 0)
      else
        mixRow3 (s.getD (4 * (j / 4)) 0) (s.getD (4 * (j / 4) + 1) 0)
          (s.getD (4 * (j / 4) + 2) 0) (s.getD (4 * (j / 4) + 3) 0)) := by
  rw [mixColumns]
  exact getD_range16_map _ hj

theorem invMixColumns_mixColumns {s : List Nat} (hlen : s.length = 16)
    (h : ∀ b ∈ s, b < 256) : invMixColumns (mixColumns s) = s := by
  apply List.ext_getElem
  · simp [invMixColumns, hlen]
  intro i hi1 hi2
  have h16 : i < 16 := by omega
  simp only [invMixColumns, List.getElem_map, List.getElem_range]
  have hA0 : (mixColumns s).getD (4 * (i / 4)) 0 =
      mixRow0 (s.getD (4 * (i / 4)) 0) (s.getD (4 * (i / 4) + 1) 0)
        (s.getD (4 * (i / 4) + 2) 0) (s.getD (4 * (i / 4) + 3) 0) := by
    rw [mixColumns_getD (by omega)]
    have e0 : 4 * (i / 4) % 4 = 0 := by omega
    have e1 : 4 * (4 * (i / 4) / 4) = 4 * (i / 4) := by omega
    rw [if_pos e0, e1]
  have hA1 : (mixColumns s).getD (4 * (i / 4) + 1) 0 =
      mixRow1 (s.getD (4 * (i / 4)) 0) (s.getD (4 * (i / 4) + 1) 0)
        (s.getD (4 * (i / 4) + 2) 0) (s.getD (4 * (i / 4) + 3) 0) := by
    rw [mixColumns_getD (by omega)]
    have e0 : ¬((4 * (i / 4) + 1) % 4 = 0) := by omega
    have e1 : (4 * (i / 4) + 1) % 4 = 1 := by omega
    have e2 : 4 * ((4 * (i / 4) + 1) / 4) = 4 * (i / 4) := by omega
    rw [if_neg e0, if_pos e1, e2]
  have hA2 : (mixColumns s).getD (4 * (i / 4) + 2) 0 =
      mixRow2 (s.getD (4 * (i / 4)) 0) (s.getD (4 * (i / 4) + 1) 0)
        (s.getD (4 * (i / 4) + 2) 0) (s.getD (4 * (i / 4) + 3) 0) := by
    rw [mixColumns_getD (by omega)]
    have e0 : ¬((4 * (i / 4) + 2) % 4 = 0) := by omega
    have e1 : ¬((4 * (i / 4) + 2) % 4 = 1) := by omega
    have e2 : (4 * (i / 4) + 2) % 4 = 2 := by omega
    have e3 : 4 * ((4 * (i / 4) + 2) / 4) = 4 * (i / 4) := by omega
    rw [if_neg e0, if_neg e1, if_pos e2, e3]
  have hA3 : (mixColumns s).getD (4 * (i / 4) + 3) 0 =
      mixRow3 (s.getD (4 * (i / 4)) 0) (s.getD (4 * (i / 4) + 1) 0)
        (s.getD (4 * (i / 4) + 2) 0) (s.getD (4 * (i / 4) + 3) 0) := by
    rw [mixColumns_getD (by omega)]
    have e0 : ¬((4 * (i / 4) + 3) % 4 = 0) := by omega
    have e1 : ¬((4 * (i / 4) + 3) % 4 = 1) := by omega
    have e2 : ¬((4 * (i / 4) + 3) % 4 = 2) := by omega
    have e3 : 4 * ((4 * (i / 4) + 3) / 4) = 4 * (i / 4) := by omega
    rw [if_neg e0, if_neg e1, if_neg e2, e3]
  rw [hA0, hA1, hA2, hA3]
  have hb0 : s.getD (4 * (i / 4)) 0 < 256 := getD_lt_of_forall h _
  have hb1 : s.getD (4 * (i / 4) + 1) 0 < 256 := getD_lt_of_forall h _
  have hb2 : s.getD (4 * (i / 4) + 2) 0 < 256 := getD_lt_of_forall h _
  have hb3 : s.getD (4 * (i / 4) + 3) 0 < 256 := getD_lt_of_forall h _
  have comps := invMix_mix_components hb0 hb1 hb2 hb3
  have hm : i % 4 = 0 ∨ i % 4 = 1 ∨ i % 4 = 2 ∨ i % 4 = 3 := by omega
  rcases hm with hm | hm | hm | hm
  · rw [if_pos hm, comps.1, show 4 * (i / 4) = i by omega,
      List.getD_eq_getElem _ _ (by omega)]
  · rw [if_neg (by omega), if_pos hm, comps.2.1, show 4 * (i / 4) + 1 = i by omega,
      List.getD_eq_getElem _ _ (by omega)]
  · rw [if_neg (by omega), if_neg (by omega), if_pos hm, comps.2.2.1,
      show 4 * (i / 4) + 2 = i by omega, List.getD_eq_getElem _ _ (by omega)]
  · rw [if_neg (by omega), if_neg (by omega), if_neg (by omega), comps.2.2.2,
      show 4 * (i / 4) + 3 = i by omega, List.getD_eq_getElem _ _ (by omega)]

/-! The round pipeline of `inverseCipher` undoes the pipeline of `cipher`. -/

theorem invCipherRound_cipherRound {ks : List (List Nat)} {s : List Nat} (r : Nat)
    (hks : KsGood ks) (hs : Good s) :
    invCipherRound ks r (shiftRows (subBytes (cipherRound ks r s))) =
      shiftRows (subBytes s) := by
  have h1 : Good (subBytes s) := good_subBytes hs
  have h2 : Good (shiftRows (subBytes s)) := good_shiftRows h1.2
  have h3 : Good (mixColumns (shiftRows (subBytes s))) := good_mixColumns h2.2
  have h4 : Good (addRoundKey ks r (mixColumns (shiftRows (subBytes s)))) :=
    good_addRoundKey hks h3.2 r
  have h5 : Good (subBytes (addRoundKey ks r (mixColumns (shiftRows (subBytes s))))) :=
    good_subBytes h4
  rw [cipherRound, invCipherRound, invShiftRows_shiftRows h5.1,
    invSubBytes_subBytes h4.2, addRoundKey_addRoundKey r h3.1,
    invMixColumns_mixColumns h2.1 h2.2]

theorem foldl_cipherRound_good {ks : List (List Nat)} (hks : KsGood ks) (rl : List Nat) :
    ∀ s, Good s → Good (rl.foldl (fun st round => cipherRound ks round st) s) := by
  induction rl with
  | nil => intro s hs; exact hs
  | cons r t ih =>
    intro s hs
    exact ih _ (good_cipherRound hks hs r)

theorem inverse_fold {ks : List (List Nat)} (hks : KsGood ks) :
    ∀ (m : Nat) (s : List Nat), Good s →
      ((List.range' 1 m).reverse).foldl (fun st round => invCipherRound ks round st)
        (shiftRows (subBytes ((List.range' 1 m).foldl
          (fun st round => cipherRound ks round st) s)))
      = shiftRows (subBytes s) := by
  intro m
  induction m with
  | zero => intro s _; rfl
  | succ m ih =>
    intro s hs
    rw [List.range'_concat, List.reverse_append, List.foldl_append, List.foldl_append]
    simp only [List.reverse_cons, List.reverse_nil, List.nil_append, List.foldl_cons,
      List.foldl_nil, Nat.one_mul]
    rw [invCipherRound_cipherRound (1 + m) hks
      (foldl_cipherRound_good hks (List.range' 1 m) s hs)]
    exact ih s hs

theorem inverseCipher_cipherRaw {x : List Nat} {ks : List (List Nat)} {n : Nat}
    (hks : KsGood ks) (hx : Good x) : inverseCipher (cipherRaw x ks n) ks n = x := by
  have h0 : Good (addRoundKey ks 0 x) := good_addRoundKey hks hx.2 0
  have hF : Good ((List.range' 1 (n - 1)).foldl
      (fun st round => cipherRound ks round st) (addRoundKey ks 0 x)) :=
    foldl_cipherRound_good hks _ _ h0
  have hSRSB : Good (shiftRows (subBytes ((List.range' 1 (n - 1)).foldl
      (fun st round => cipherRound ks round st) (addRoundKey ks 0 x)))) :=
    good_shiftRows (good_subBytes hF).2
  simp only [cipherRaw, inverseCipher]
  rw [addRoundKey_addRoundKey n hSRSB.1]
  rw [inverse_fold hks (n - 1) (addRoundKey ks 0 x) h0]
  rw [invShiftRows_shiftRows (good_subBytes h0).1, invSubBytes_subBytes h0.2,
    addRoundKey_addRoundKey 0 hx.1]

/-! Key-expansion lemmas. -/

theorem getD_concat_self {l : List (List Nat)} {x : List Nat} :
    (l ++ [x]).getD l.length [] = x := by
  rw [List.getD_eq_getElem _ _ (by simp)]
  exact List.getElem_concat_length l x l.length rfl (by simp)

theorem getD_append_left {l : List (List Nat)} {x : List Nat} {j : Nat}
    (hj : j < l.length) : (l ++ [x]).getD j [] = l.getD j [] := by
  rw [List.getD_eq_getElem _ _ (by simp; omega), List.getD_eq_getElem _ _ hj]
  exact List.getElem_append_left hj

theorem expandLoop_length_aux (kl total : Nat) : ∀ (fuel : Nat) (acc : List (List Nat)),
    total - acc.length ≤ fuel → (expandLoop kl total acc).length = max acc.length total := by
  intro fuel
  induction fuel with
  | zero =>
    intro acc hle
    rw [expandLoop, dif_neg (by omega)]
    omega
  | succ n ih =>
    intro acc hle
    rw [expandLoop]
    by_cases h : acc.length < total
    · rw [dif_pos h, ih _ (by simp; omega)]
      simp
      omega
    · rw [dif_neg h]
      omega

theorem expandLoop_length (kl total : Nat) (acc : List (List Nat)) :
    (expandLoop kl total acc).length = max acc.length total :=
  expandLoop_length_aux kl total (total - acc.length) acc (le_refl _)

theorem expandLoop_stable_aux (kl total : Nat) : ∀ (fuel : Nat) (acc : List (List Nat))
    (j : Nat), total - acc.length ≤ fuel → j < acc.length →
    (expandLoop kl total acc).getD j [] = acc.getD j [] := by
  intro fuel
  induction fuel with
  | zero =>
    intro acc j hle hj
    rw [expandLoop, dif_neg (by omega)]
  | succ n ih =>
    intro acc j hle hj
    rw [expandLoop]
    by_cases h : acc.length < total
    · rw [dif_pos h, ih _ _ (by simp; omega) (by simp; omega)]
      exact getD_append_left hj
    · rw [dif_neg h]

theorem expandLoop_stable (kl total : Nat) (acc : List (List Nat)) {j : Nat}
    (hj : j < acc.length) : (expandLoop kl total acc).getD j [] = acc.getD j [] :=
  expandLoop_stable_aux kl total (total - acc.length) acc j (le_refl _) hj

theorem roundConstant_ok : ∀ m, m < 11 →
    (roundConstant.getD m []).length = 4 ∧ ∀ b ∈ roundConstant.getD m [], b < 256 := by
  decide

theorem rotateWord_length (w : List Nat) : (rotateWord w).length = w.length := by
  cases w with
  | nil => rfl
  | cons a t => simp [rotateWord]

theorem rotateWord_mem {w : List Nat} {b : Nat} (hb : b ∈ rotateWord w) : b ∈ w := by
  cases w with
  | nil => simp [rotateWord] at hb
  | cons a t =>
    simp only [rotateWord, List.mem_append, List.mem_singleton, List.mem_cons] at hb ⊢
    tauto

theorem subWord_length (w : List Nat) : (subWord w).length = w.length := by
  simp [subWord]

theorem subWord_mem_lt {w : List Nat} : ∀ b ∈ subWord w, b < 256 := by
  intro b hb
  rw [subWord, List.mem_map] at hb
  obtain ⟨a, _, rfl⟩ := hb
  exact getD_lt_of_forall sBox_mem_lt a

theorem zipWith_xor_length (u v : List Nat) :
    (List.zipWith (fun x y => x ^^^ y) u v).length = min u.length v.length := by
  simp

theorem zipWith_xor_mem_lt {u v : List Nat} (hu : ∀ b ∈ u, b < 256)
    (hv : ∀ b ∈ v, b < 256) : ∀ b ∈ List.zipWith (fun x y => x ^^^ y) u v, b < 256 := by
  intro b hb
  rw [List.mem_iff_getElem] at hb
  obtain ⟨i, hi, rfl⟩ := hb
  rw [List.getElem_zipWith]
  have hiu : i < u.length := by simp at hi; omega
  have hiv : i < v.length := by simp at hi; omega
  exact xor_lt_256 (hu _ (List.getElem_mem hiu)) (hv _ (List.getElem_mem hiv))

theorem ksOk_getD {ks : List (List Nat)} (h : KsOk ks) {j : Nat} (hj : j < ks.length) :
    (ks.getD j []).length = 4 ∧ ∀ b ∈ ks.getD j [], b < 256 := by
  rw [List.getD_eq_getElem _ _ hj]
  exact h _ (List.getElem_mem hj)

theorem nextWordTemp_ok {kl : Nat} {ks : List (List Nat)} {i : Nat} (hkl : 1 ≤ kl)
    (h : KsOk ks) (hi1 : 1 ≤ i) (hi2 : i ≤ ks.length) (hdiv : i / kl < 11) :
    (nextWordTemp kl ks i).length = 4 ∧ ∀ b ∈ nextWordTemp kl ks i, b < 256 := by
  have hprev := ksOk_getD h (show i - 1 < ks.length by omega)
  rw [nextWordTemp]
  split
  · constructor
    · rw [zipWith_xor_length, subWord_length, rotateWord_length, hprev.1,
        (roundConstant_ok _ hdiv).1]
      simp
    · exact zipWith_xor_mem_lt subWord_mem_lt (roundConstant_ok _ hdiv).2
  · split
    · exact ⟨by rw [subWord_length, hprev.1], subWord_mem_lt⟩
    · exact hprev

theorem expandLoop_ok_aux (kl total : Nat) (hkl : 1 ≤ kl) (htot : total ≤ 11 * kl) :
    ∀ (fuel : Nat) (acc : List (List Nat)), total - acc.length ≤ fuel →
      1 ≤ acc.length → KsOk acc → KsOk (expandLoop kl total acc) := by
  intro fuel
  induction fuel with
  | zero =>
    intro acc hle _ hacc
    rw [expandLoop, dif_neg (by omega)]
    exact hacc
  | succ n ih =>
    intro acc hle hlen hacc
    rw [expandLoop]
    by_cases h : acc.length < total
    · rw [dif_pos h]
      apply ih _ (by simp; omega) (by simp)
      intro w' hw'
      rw [List.mem_append, List.mem_singleton] at hw'
      rcases hw' with hw' | rfl
      · exact hacc _ hw'
      have hdiv : acc.length / kl < 11 := by
        rw [Nat.div_lt_iff_lt_mul (by omega)]
        omega
      have htemp : (nextWordTemp kl acc acc.length).length = 4 ∧
          ∀ b ∈ nextWordTemp kl acc acc.length, b < 256 :=
        nextWordTemp_ok hkl hacc hlen (le_refl _) hdiv
      have hbase := ksOk_getD hacc (show acc.length - kl < acc.length by omega)
      constructor
      · rw [zipWith_xor_length, hbase.1, htemp.1]
        simp
      · exact zipWith_xor_mem_lt hbase.2 htemp.2
    · rw [dif_neg h]
      exact hacc

theorem expandLoop_ok (kl total : Nat) (acc : List (List Nat)) (hkl : 1 ≤ kl)
    (htot : total ≤ 11 * kl) (hlen : 1 ≤ acc.length) (hacc : KsOk acc) :
    KsOk (expandLoop kl total acc) :=
  expandLoop_ok_aux kl total hkl htot (total - acc.length) acc (le_refl _) hlen hacc

theorem expandLoop_rec_aux (kl total : Nat) (hkl : 1 ≤ kl) :
    ∀ (fuel : Nat) (acc : List (List Nat)), total - acc.length ≤ fuel →
      kl ≤ acc.length →
      (∀ j, kl ≤ j → j < acc.length →
        acc.getD j [] = List.zipWith (fun x y => x ^^^ y) (acc.getD (j - kl) [])
          (nextWordTemp kl acc j)) →
      ∀ j, kl ≤ j → j < (expandLoop kl total acc).length →
        (expandLoop kl total acc).getD j [] =
          List.zipWith (fun x y => x ^^^ y) ((expandLoop kl total acc).getD (j - kl) [])
            (nextWordTemp kl (expandLoop kl total acc) j) := by
  intro fuel
  induction fuel with
  | zero =>
    intro acc hle hkl2 hinv j hj1 hj2
    rw [expandLoop, dif_neg (by omega)] at hj2 ⊢
    exact hinv j hj1 hj2
  | succ n ih =>
    intro acc hle hkl2 hinv j hj1 hj2
    rw [expandLoop] at hj2 ⊢
    by_cases h : acc.length < total
    · rw [dif_pos h] at hj2 ⊢
      apply ih _ (by simp; omega) (by simp; omega) ?_ j hj1 hj2
      intro j' hj'1 hj'2
      rw [List.length_append, List.length_singleton] at hj'2
      by_cases hj'acc : j' < acc.length
      · have e1 : (acc ++ [List.zipWith (fun x y => x ^^^ y) (acc.getD (acc.length - kl) [])
            (nextWordTemp kl acc acc.length)]).getD j' [] = acc.getD j' [] :=
          getD_append_left hj'acc
        have e2 := @getD_append_left acc (List.zipWith (fun x y => x ^^^ y)
          (acc.getD (acc.length - kl) []) (nextWordTemp kl acc acc.length))
          (j' - kl) (show j' - kl < acc.length by omega)
        have e3 : nextWordTemp kl (acc ++ [List.zipWith (fun x y => x ^^^ y)
            (acc.getD (acc.length - kl) []) (nextWordTemp kl acc acc.length)]) j' =
            nextWordTemp kl acc j' := by
          simp only [nextWordTemp, getD_append_left (show j' - 1 < acc.length by omega)]
        rw [e1, e2, e3]
        exact hinv j' hj'1 hj'acc
      · have hj'eq : j' = acc.length := by omega
        subst hj'eq
        rw [getD_concat_self]
        have e2 := @getD_append_left acc (List.zipWith (fun x y => x ^^^ y)
          (acc.getD (acc.length - kl) []) (nextWordTemp kl acc acc.length))
          (acc.length - kl) (show acc.length - kl < acc.length by omega)
        have e3 : nextWordTemp kl (acc ++ [List.zipWith (fun x y => x ^^^ y)
            (acc.getD (acc.length - kl) []) (nextWordTemp kl acc acc.length)]) acc.length =
            nextWordTemp kl acc acc.length := by
          simp only [nextWordTemp,
            getD_append_left (show acc.length - 1 < acc.length by omega)]
        rw [e2, e3]
    · rw [dif_neg h] at hj2 ⊢
      exact hinv j hj1 hj2

theorem expandLoop_rec (kl total : Nat) (acc : List (List Nat)) (hkl : 1 ≤ kl)
    (hlen : kl ≤ acc.length)
    (hinv : ∀ j, kl ≤ j → j < acc.length →
      acc.getD j [] = List.zipWith (fun x y => x ^^^ y) (acc.getD (j - kl) [])
        (nextWordTemp kl acc j)) :
    ∀ j, kl ≤ j → j < (expandLoop kl total acc).length →
      (expandLoop kl total acc).getD j [] =
        List.zipWith (fun x y => x ^^^ y) ((expandLoop kl total acc).getD (j - kl) [])
          (nextWordTemp kl (expandLoop kl total acc) j) :=
  expandLoop_rec_aux kl total hkl (total - acc.length) acc (le_refl _) hlen hinv

/-! Facts about `keyExpansion` on valid keys. -/

theorem getD_range_map {α : Type} (f : Nat → α) {K i : Nat} (h : i < K) (d : α) :
    ((List.range K).map f).getD i d = f i := by
  rw [List.getD_eq_getElem _ _ (by simp [h])]
  simp

theorem keyExpansion_valid {key : List Nat} {kl n : Nat}
    (hv : (kl = 4 ∧ n = 10 ∧ key.length = 16) ∨ (kl = 8 ∧ n = 14 ∧ key.length = 32)) :
    keyExpansion key 4 kl n = .ok (expandLoop kl (4 * (n + 1))
      ((List.range kl).map fun i =>
        [key.getD (4 * i) 0, key.getD (4 * i + 1) 0, key.getD (4 * i + 2) 0,
         key.getD (4 * i + 3) 0])) := by
  rcases hv with ⟨h1, h2, h3⟩ | ⟨h1, h2, h3⟩ <;> subst h1 <;> subst h2 <;>
    rw [keyExpansion, if_neg (by simp [h3]), if_neg (by simp [h3])]

theorem initialWords_ok {key : List Nat} (hkey : ∀ b ∈ key, b < 256) (kl : Nat) :
    KsOk ((List.range kl).map fun i =>
      [key.getD (4 * i) 0, key.getD (4 * i + 1) 0, key.getD (4 * i + 2) 0,
       key.getD (4 * i + 3) 0]) := by
  intro w hw
  rw [List.mem_map] at hw
  obtain ⟨i, _, rfl⟩ := hw
  refine ⟨rfl, ?_⟩
  intro b hb
  simp only [List.mem_cons, List.not_mem_nil, or_false] at hb
  rcases hb with rfl | rfl | rfl | rfl <;> exact getD_lt_of_forall hkey _

theorem keyExpansion_ksOk {key : List Nat} {kl n : Nat} {ks : List (List Nat)}
    (hv : (kl = 4 ∧ n = 10 ∧ key.length = 16) ∨ (kl = 8 ∧ n = 14 ∧ key.length = 32))
    (hkey : ∀ b ∈ key, b < 256) (h : keyExpansion key 4 kl n = .ok ks) : KsOk ks := by
  rw [keyExpansion_valid hv] at h
  have hks := Except.ok.inj h
  subst hks
  apply expandLoop_ok
  · rcases hv with ⟨h1, _, _⟩ | ⟨h1, _, _⟩ <;> omega
  · rcases hv with ⟨h1, h2, _⟩ | ⟨h1, h2, _⟩ <;> subst h1 <;> subst h2 <;> norm_num
  · rcases hv with ⟨h1, _, _⟩ | ⟨h1, _, _⟩ <;> subst h1 <;> simp
  · exact initialWords_ok hkey kl

theorem ksGood_of_ksOk {ks : List (List Nat)} (h : KsOk ks) : KsGood ks :=
  fun w hw => (h w hw).2

/-! Padding and chunking. -/

theorem getD_append_left_any {α : Type} {l l2 : List α} {j : Nat} (hj : j < l.length)
    (d : α) : (l ++ l2).getD j d = l.getD j d := by
  rw [List.getD_eq_getElem _ _ (by simp; omega), List.getD_eq_getElem _ _ hj]
  exact List.getElem_append_left hj

theorem getD_concat_self_any {α : Type} (l : List α) (x : α) (d : α) :
    (l ++ [x]).getD l.length d = x := by
  rw [List.getD_eq_getElem _ _ (by simp)]
  exact List.getElem_concat_length l x l.length rfl (by simp)

theorem set_replicate_last (n v : Nat) :
    (List.replicate (n + 1) 0).set n v = List.replicate n 0 ++ [v] := by
  induction n with
  | zero => rfl
  | succ m ih =>
    rw [List.replicate_succ 0 (m + 1), List.set_cons_succ, ih,
      ← List.cons_append, ← List.replicate_succ]

theorem padInput_eq (input : List Nat) :
    padInput input = input ++ (List.replicate (16 - input.length % 16 - 1) 0 ++
      [16 - input.length % 16]) := by
  rw [padInput]
  norm_num
  have hpl : 1 ≤ 16 - input.length % 16 := by omega
  generalize hq : 16 - input.length % 16 = p
  rw [hq] at hpl
  obtain ⟨q, rfl⟩ : ∃ q, p = q + 1 := ⟨p - 1, by omega⟩
  simp only [Nat.add_sub_cancel]
  rw [set_replicate_last]

theorem padInput_length (input : List Nat) :
    (padInput input).length = input.length + (16 - input.length % 16) := by
  rw [padInput_eq]
  simp
  omega

theorem padInput_mod (input : List Nat) : (padInput input).length % 16 = 0 := by
  rw [padInput_length]
  omega

theorem padInput_bytes_lt {input : List Nat} (h : ∀ b ∈ input, b < 256) :
    ∀ b ∈ padInput input, b < 256 := by
  rw [padInput_eq]
  intro b hb
  rw [List.mem_append] at hb
  rcases hb with hb | hb
  · exact h b hb
  rw [List.mem_append] at hb
  rcases hb with hb | hb
  · rw [List.mem_replicate] at hb
    omega
  · rw [List.mem_singleton] at hb
    omega

theorem chunk16_length {l : List Nat} {i : Nat} (h : 16 * i + 16 ≤ l.length) :
    (chunk16 l i).length = 16 := by
  rw [chunk16]
  rw [List.length_take, List.length_drop]
  omega

theorem chunk16_bytes_lt {l : List Nat} (h : ∀ b ∈ l, b < 256) (i : Nat) :
    ∀ b ∈ chunk16 l i, b < 256 := by
  intro b hb
  rw [chunk16] at hb
  exact h b (List.mem_of_mem_drop (List.mem_of_mem_take hb))

theorem chunk16_getD {l : List Nat} {i k : Nat} (hk : k < 16)
    (h : 16 * i + 16 ≤ l.length) : (chunk16 l i).getD k 0 = l.getD (16 * i + k) 0 := by
  have hlen : (chunk16 l i).length = 16 := chunk16_length h
  rw [List.getD_eq_getElem _ _ (by omega), List.getD_eq_getElem _ _ (by omega)]
  simp only [chunk16, List.getElem_take, List.getElem_drop]

theorem flatten_map_chunk16 {l : List Nat} {K : Nat} (hK : l.length = 16 * K) :
    ∀ m, m ≤ K → ((List.range m).map (chunk16 l)).flatten = l.take (16 * m) := by
  intro m
  induction m with
  | zero => intro _; simp
  | succ m ih =>
    intro h
    rw [List.range_succ, List.map_append, List.flatten_append]
    simp only [List.map_cons, List.map_nil, List.flatten_cons, List.flatten_nil,
      List.append_nil]
    rw [ih (by omega), chunk16, ← List.take_add,
      show 16 * m + 16 = 16 * (m + 1) by ring]

theorem chunk16_flatten {L : List (List Nat)} (h : ∀ x ∈ L, x.length = 16) :
    ∀ i, i < L.length → chunk16 L.flatten i = L.getD i [] := by
  induction L with
  | nil => intro i hi; simp at hi
  | cons a t ih =>
    intro i hi
    have ha : a.length = 16 := h a (List.mem_cons_self a t)
    cases i with
    | zero =>
      rw [chunk16, List.getD_cons_zero, List.flatten_cons]
      simp only [Nat.mul_zero, List.drop_zero]
      exact List.take_left' ha
    | succ i =>
      rw [chunk16, List.getD_cons_succ, List.flatten_cons,
        show 16 * (i + 1) = a.length + 16 * i by omega, List.drop_append]
      have := ih (fun x hx => h x (List.mem_cons_of_mem _ hx)) i (by simp at hi; omega)
      rw [chunk16] at this
      exact this

theorem flatten_length_16 {L : List (List Nat)} (h : ∀ x ∈ L, x.length = 16) :
    L.flatten.length = 16 * L.length := by
  induction L with
  | nil => rfl
  | cons a t ih =>
    rw [List.flatten_cons, List.length_append, h a (List.mem_cons_self a t),
      ih (fun x hx => h x (List.mem_cons_of_mem _ hx))]
    simp
    ring

theorem except_bind_ok {α β : Type} (a : α) (f : α → Except AESError β) :
    (Except.ok a).bind f = f a := rfl

theorem mapM_ok {α β : Type} (l : List α) (f : α → Except AESError β) (g : α → β)
    (h : ∀ a ∈ l, f a = .ok (g a)) : l.mapM f = .ok (l.map g) := by
  induction l with
  | nil => rfl
  | cons a t ih =>
    rw [List.mapM_cons, h a (List.mem_cons_self a t), List.map_cons,
      ih (fun x hx => h x (List.mem_cons_of_mem _ hx))]
    rfl

/-! Unfolding `encrypt` and `decrypt` on valid inputs. -/

theorem addRoundKey_length (ks : List (List Nat)) (r : Nat) (s : List Nat) :
    (addRoundKey ks r s).length = 16 := by
  simp [addRoundKey]

theorem cipherRaw_length (x : List Nat) (ks : List (List Nat)) (n : Nat) :
    (cipherRaw x ks n).length = 16 := by
  simp only [cipherRaw]
  exact addRoundKey_length _ _ _

theorem inverseCipher_length (x : List Nat) (ks : List (List Nat)) (n : Nat) :
    (inverseCipher x ks n).length = 16 := by
  simp only [inverseCipher]
  exact addRoundKey_length _ _ _

theorem encrypt_eq {keySize kl n : Nat} {key : List Nat} {ks : List (List Nat)}
    (hp : keyParams keySize = some (n, kl)) (hks : keyExpansion key 4 kl n = .ok ks)
    (input : List Nat) :
    encrypt keySize key input = .ok (((List.range ((padInput input).length / 16)).map
      fun i => cipherRaw (chunk16 (padInput input) i) ks n).flatten) := by
  have hmod := padInput_mod input
  have hchunk : ∀ i ∈ List.range ((padInput input).length / 16),
      cipher (chunk16 (padInput input) i) ks n =
        .ok (cipherRaw (chunk16 (padInput input) i) ks n) := by
    intro i hi
    rw [List.mem_range] at hi
    have hlen : (chunk16 (padInput input) i).length = 16 := chunk16_length (by omega)
    rw [cipher, if_neg (by omega)]
  simp only [encrypt, hp, hks, except_bind_ok]
  rw [if_neg (by simp [hmod])]
  rw [mapM_ok _ _ (fun i => cipherRaw (chunk16 (padInput input) i) ks n) hchunk]
  rfl

theorem decrypt_eq {keySize kl n : Nat} {key : List Nat} {ks : List (List Nat)}
    (hp : keyParams keySize = some (n, kl)) (hks : keyExpansion key 4 kl n = .ok ks)
    {input : List Nat} (halign : input.length % 16 = 0) :
    decrypt keySize key input = .ok
      ((((List.range (input.length / 16 - 1)).map fun i =>
        inverseCipher (chunk16 input i) ks n).flatten) ++
        removePaddingFromInput
          (inverseCipher (chunk16 input (input.length / 16 - 1)) ks n)) := by
  simp only [decrypt, hp, hks, except_bind_ok]
  rw [if_neg (by simp [halign])]

theorem removePadding_of_16 {l : List Nat} (hlen : l.length = 16) {p : Nat}
    (hlast : l.getD 15 0 = p) (hp1 : 1 ≤ p) (hp2 : p ≤ 16) :
    removePaddingFromInput l = l.take (16 - p) := by
  simp only [removePaddingFromInput]
  rw [hlen, show (16 : Nat) - 1 = 15 from rfl, hlast]
  congr 1
  rw [sliceEndIndex, if_neg (by omega)]
  omega

/-! The encrypt/decrypt round trip. -/

theorem roundtrip_core {keySize kl n : Nat} {key msg : List Nat}
    (hp : keyParams keySize = some (n, kl))
    (hv : (kl = 4 ∧ n = 10 ∧ key.length = 16) ∨ (kl = 8 ∧ n = 14 ∧ key.length = 32))
    (hkey : ∀ b ∈ key, b < 256) (hmsg : ∀ b ∈ msg, b < 256) :
    ∃ ct, encrypt keySize key msg = .ok ct ∧ decrypt keySize key ct = .ok msg := by
  obtain ⟨ks, hks⟩ : ∃ ks, keyExpansion key 4 kl n = .ok ks := ⟨_, keyExpansion_valid hv⟩
  have hksgood : KsGood ks := ksGood_of_ksOk (keyExpansion_ksOk hv hkey hks)
  have hpl1 : 1 ≤ 16 - msg.length % 16 := by omega
  have hpl16 : 16 - msg.length % 16 ≤ 16 := by omega
  have hplen : (padInput msg).length = msg.length + (16 - msg.length % 16) :=
    padInput_length msg
  have hmod : (padInput msg).length % 16 = 0 := padInput_mod msg
  have hKlen : (padInput msg).length = 16 * ((padInput msg).length / 16) := by omega
  have hK1 : 1 ≤ (padInput msg).length / 16 := by omega
  have hpadbytes : ∀ b ∈ padInput msg, b < 256 := padInput_bytes_lt hmsg
  have hchunkGood : ∀ i, i < (padInput msg).length / 16 → Good (chunk16 (padInput msg) i) :=
    fun i hi => ⟨chunk16_length (by omega), chunk16_bytes_lt hpadbytes i⟩
  have hctlen16 : ∀ x ∈ (List.range ((padInput msg).length / 16)).map
      (fun i => cipherRaw (chunk16 (padInput msg) i) ks n), x.length = 16 := by
    intro x hx
    rw [List.mem_map] at hx
    obtain ⟨i, _, rfl⟩ := hx
    exact cipherRaw_length _ _ _
  have hctsK : ((List.range ((padInput msg).length / 16)).map
      (fun i => cipherRaw (chunk16 (padInput msg) i) ks n)).length =
      (padInput msg).length / 16 := by simp
  have hctlen : ((List.range ((padInput msg).length / 16)).map
      (fun i => cipherRaw (chunk16 (padInput msg) i) ks n)).flatten.length =
      16 * ((padInput msg).length / 16) := by
    rw [flatten_length_16 hctlen16, hctsK]
  refine ⟨_, encrypt_eq hp hks msg, ?_⟩
  have halign : ((List.range ((padInput msg).length / 16)).map
      (fun i => cipherRaw (chunk16 (padInput msg) i) ks n)).flatten.length % 16 = 0 := by
    rw [hctlen]
    omega
  rw [decrypt_eq hp hks halign]
  have hKK : ((List.range ((padInput msg).length / 16)).map
      (fun i => cipherRaw (chunk16 (padInput msg) i) ks n)).flatten.length / 16 =
      (padInput msg).length / 16 := by
    rw [hctlen]
    omega
  rw [hKK]
  have hchunk_ct : ∀ i, i < (padInput msg).length / 16 →
      chunk16 (((List.range ((padInput msg).length / 16)).map
        (fun i => cipherRaw (chunk16 (padInput msg) i) ks n)).flatten) i =
      cipherRaw (chunk16 (padInput msg) i) ks n := by
    intro i hi
    rw [chunk16_flatten hctlen16 i (by rw [hctsK]; omega), getD_range_map _ hi]
  have hinv_chunk : ∀ i, i < (padInput msg).length / 16 →
      inverseCipher (chunk16 (((List.range ((padInput msg).length / 16)).map
        (fun i => cipherRaw (chunk16 (padInput msg) i) ks n)).flatten) i) ks n =
      chunk16 (padInput msg) i := by
    intro i hi
    rw [hchunk_ct i hi]
    exact inverseCipher_cipherRaw hksgood (hchunkGood i hi)
  have hmiddles : ((List.range ((padInput msg).length / 16 - 1)).map fun i =>
      inverseCipher (chunk16 (((List.range ((padInput msg).length / 16)).map
        (fun i => cipherRaw (chunk16 (padInput msg) i) ks n)).flatten) i) ks n) =
      (List.range ((padInput msg).length / 16 - 1)).map (chunk16 (padInput msg)) := by
    apply List.map_congr_left
    intro i hi
    rw [List.mem_range] at hi
    exact hinv_chunk i (by omega)
  rw [hmiddles, flatten_map_chunk16 hKlen _ (by omega)]
  rw [hinv_chunk _ (by omega)]
  have hpadded_split : padInput msg =
      (msg ++ List.replicate (16 - msg.length % 16 - 1) 0) ++ [16 - msg.length % 16] := by
    rw [padInput_eq, List.append_assoc]
  have hlast_byte : (chunk16 (padInput msg) ((padInput msg).length / 16 - 1)).getD 15 0 =
      16 - msg.length % 16 := by
    rw [chunk16_getD (by omega) (by omega)]
    rw [show 16 * ((padInput msg).length / 16 - 1) + 15 =
      (msg ++ List.replicate (16 - msg.length % 16 - 1) 0).length from by simp; omega]
    rw [hpadded_split, getD_concat_self_any]
  rw [removePadding_of_16 (chunk16_length (by omega)) hlast_byte hpl1 hpl16]
  rw [chunk16, List.take_take, show (16 - (16 - msg.length % 16)) ⊓ 16 =
    16 - (16 - msg.length % 16) by omega]
  rw [← List.take_add]
  rw [show 16 * ((padInput msg).length / 16 - 1) + (16 - (16 - msg.length % 16)) =
    msg.length by omega]
  rw [show padInput msg = msg ++ (List.replicate (16 - msg.length % 16 - 1) 0 ++
    [16 - msg.length % 16]) from padInput_eq msg]
  rw [List.take_left]

/-! Remaining helper lemmas for the claim theorems. -/

theorem addRoundKey_nil_eq_zero (ks : List (List Nat)) (r : Nat) :
    addRoundKey ks r [] = addRoundKey ks r (List.replicate 16 0) := by
  simp only [addRoundKey]
  apply List.map_congr_left
  intro i hi
  rw [List.mem_range] at hi
  congr 1
  rw [List.getD_eq_default _ _ (by simp), List.getD_eq_getElem _ _ (by simp [hi]),
    List.getElem_replicate]

theorem inverseCipher_nil (ks : List (List Nat)) (n : Nat) :
    inverseCipher [] ks n = inverseCipher (List.replicate 16 0) ks n := by
  simp only [inverseCipher, addRoundKey_nil_eq_zero]

theorem removePadding_16_raw {l : List Nat} (hlen : l.length = 16) :
    removePaddingFromInput l =
      l.take (sliceEndIndex 16 ((16 : Int) - l.getD 15 0)) := by
  simp only [removePaddingFromInput]
  rw [hlen, show (16 : Nat) - 1 = 15 from rfl]
  norm_cast

theorem decrypt_empty_core {keySize kl n : Nat} {key : List Nat} {ks : List (List Nat)}
    (hp : keyParams keySize = some (n, kl)) (hks : keyExpansion key 4 kl n = .ok ks) :
    decrypt keySize key [] = Except.ok
      (removePaddingFromInput (inverseCipher (List.replicate 16 0) ks n)) := by
  have h := @decrypt_eq keySize kl n key ks hp hks ([] : List Nat) (by simp)
  simp only [List.length_nil, Nat.zero_div, Nat.zero_sub, List.range_zero,
    List.map_nil, List.flatten_nil, List.nil_append] at h
  rw [show chunk16 ([] : List Nat) 0 = [] from rfl, inverseCipher_nil] at h
  exact h

/-! The claims. -/

/-- C1: for every key size in {128,256}, every key of the matching byte length
and every byte message, decrypting the encryption of the message with the same
key size and key returns exactly the original message. -/
theorem encrypt_decrypt_roundtrip {keySize : Nat} {key message : List Nat}
    (hsize : (keySize = 128 ∧ key.length = 16) ∨ (keySize = 256 ∧ key.length = 32))
    (hkey : ∀ b ∈ key, b < 256) (hmsg : ∀ b ∈ message, b < 256) :
    ∃ ct, encrypt keySize key message = Except.ok ct ∧
      decrypt keySize key ct = Except.ok message := by
  rcases hsize with ⟨h1, h2⟩ | ⟨h1, h2⟩ <;> subst h1
  · exact roundtrip_core (by rfl) (Or.inl ⟨rfl, rfl, h2⟩) hkey hmsg
  · exact roundtrip_core (by rfl) (Or.inr ⟨rfl, rfl, h2⟩) hkey hmsg

/-- Witness for C1 at the FIPS-197 128-bit key and the message `[1, 2, 3]`. -/
theorem encrypt_decrypt_roundtrip_witness :
    ∃ ct, encrypt 128 fipsKey128 [1, 2, 3] = Except.ok ct ∧
      decrypt 128 fipsKey128 ct = Except.ok [1, 2, 3] :=
  encrypt_decrypt_roundtrip (Or.inl ⟨rfl, by decide⟩) (by decide) (by decide)

/-- C2: for every valid key of either size with its round count (10 or 14) and
every 16-byte block, `inverseCipher` applied to the output of `cipher` under
the expanded key schedule returns the original block. -/
theorem inverseCipher_cipher_id {kl n : Nat} {key x : List Nat} {ks : List (List Nat)}
    (hv : (kl = 4 ∧ n = 10 ∧ key.length = 16) ∨ (kl = 8 ∧ n = 14 ∧ key.length = 32))
    (hkey : ∀ b ∈ key, b < 256) (hks : keyExpansion key 4 kl n = Except.ok ks)
    (hxlen : x.length = 16) (hx : ∀ b ∈ x, b < 256) :
    ∃ y, cipher x ks n = Except.ok y ∧ inverseCipher y ks n = x := by
  have hksgood : KsGood ks := ksGood_of_ksOk (keyExpansion_ksOk hv hkey hks)
  refine ⟨_, ?_, inverseCipher_cipherRaw hksgood ⟨hxlen, hx⟩⟩
  rw [cipher, if_neg (by omega)]

/-- Witness for C2 at the FIPS-197 128-bit key and example block. -/
theorem inverseCipher_cipher_id_witness :
    ∃ ks, keyExpansion fipsKey128 4 4 10 = Except.ok ks ∧
      ∃ y, cipher fipsBlock ks 10 = Except.ok y ∧ inverseCipher y ks 10 = fipsBlock :=
  ⟨_, keyExpansion_valid (Or.inl ⟨rfl, rfl, by decide⟩),
    inverseCipher_cipher_id (Or.inl ⟨rfl, rfl, by decide⟩) (by decide)
      (keyExpansion_valid (Or.inl ⟨rfl, rfl, by decide⟩)) (by decide) (by decide)⟩

/-- C3: `cipher` reproduces the FIPS-197 single-block vectors for the example
128-bit key (10 rounds) and 256-bit key (14 rounds). -/
theorem cipher_fips_vectors :
    (keyExpansion fipsKey128 4 4 10).bind (fun ks => cipher fipsBlock ks 10) =
      Except.ok fipsCipher128 ∧
    (keyExpansion fipsKey256 4 8 14).bind (fun ks => cipher fipsBlock ks 14) =
      Except.ok fipsCipher256 := by
  constructor
  · decide!
  · decide!

/-- C4: on a valid key, `keyExpansion` returns `4 * (numberOfRounds + 1)`
four-byte words; the first `keyLength` words are the raw key bytes, and every
later word `i` is word `i - keyLength` XOR the transformed word `i - 1`
(rotated, substituted and round-constant-XORed when `i % keyLength = 0`,
substituted alone when `keyLength > 6 ∧ i % keyLength = 4`, else unchanged). -/
theorem keyExpansion_spec {key : List Nat} {kl n : Nat}
    (hv : (kl = 4 ∧ n = 10 ∧ key.length = 16) ∨ (kl = 8 ∧ n = 14 ∧ key.length = 32))
    (hkey : ∀ b ∈ key, b < 256) :
    ∃ ks, keyExpansion key 4 kl n = Except.ok ks ∧
      ks.length = 4 * (n + 1) ∧
      (∀ w ∈ ks, w.length = 4) ∧
      (∀ i, i < kl → ks.getD i [] =
        [key.getD (4 * i) 0, key.getD (4 * i + 1) 0, key.getD (4 * i + 2) 0,
         key.getD (4 * i + 3) 0]) ∧
      (∀ i, kl ≤ i → i < 4 * (n + 1) →
        ks.getD i [] = List.zipWith (fun x y => x ^^^ y) (ks.getD (i - kl) [])
          (nextWordTemp kl ks i)) := by
  have hkl1 : 1 ≤ kl := by rcases hv with ⟨h, _, _⟩ | ⟨h, _, _⟩ <;> omega
  have hkltot : kl ≤ 4 * (n + 1) := by
    rcases hv with ⟨h1, h2, _⟩ | ⟨h1, h2, _⟩ <;> omega
  refine ⟨_, keyExpansion_valid hv, ?_, ?_, ?_, ?_⟩
  · rw [expandLoop_length]
    simp
    omega
  · intro w hw
    exact (keyExpansion_ksOk hv hkey (keyExpansion_valid hv) w hw).1
  · intro i hi
    rw [expandLoop_stable _ _ _ (by simp [hi])]
    exact getD_range_map _ hi _
  · intro i h1 h2
    refine expandLoop_rec kl (4 * (n + 1)) _ hkl1 (by simp) ?_ i h1 ?_
    · intro j hj1 hj2
      exfalso
      simp at hj2
      omega
    · rw [expandLoop_length]
      simp
      omega

/-- Witness for C4 at the FIPS-197 128-bit key. -/
theorem keyExpansion_spec_witness :
    ∃ ks, keyExpansion fipsKey128 4 4 10 = Except.ok ks ∧
      ks.length = 4 * (10 + 1) ∧
      (∀ w ∈ ks, w.length = 4) ∧
      (∀ i, i < 4 → ks.getD i [] =
        [fipsKey128.getD (4 * i) 0, fipsKey128.getD (4 * i + 1) 0,
         fipsKey128.getD (4 * i + 2) 0, fipsKey128.getD (4 * i + 3) 0]) ∧
      (∀ i, 4 ≤ i → i < 4 * (10 + 1) →
        ks.getD i [] = List.zipWith (fun x y => x ^^^ y) (ks.getD (i - 4) [])
          (nextWordTemp 4 ks i)) :=
  keyExpansion_spec (Or.inl ⟨rfl, rfl, by decide⟩) (by decide)

/-- C5: `padInput` appends `L = 16 - (len % 16)` bytes with `1 ≤ L ≤ 16`
(`L = 16` when `len` is a multiple of 16), all zero except the last byte which
equals `L`; the result has positive length, a multiple of 16, with the
original message as prefix, and the empty message becomes one block ending
in 16. -/
theorem padInput_spec (input : List Nat) :
    1 ≤ 16 - input.length % 16 ∧ 16 - input.length % 16 ≤ 16 ∧
    (input.length % 16 = 0 → 16 - input.length % 16 = 16) ∧
    padInput input = input ++ (List.replicate (16 - input.length % 16 - 1) 0 ++
      [16 - input.length % 16]) ∧
    (padInput input).length = input.length + (16 - input.length % 16) ∧
    (padInput input).length % 16 = 0 ∧ 0 < (padInput input).length ∧
    (padInput input).take input.length = input ∧
    padInput [] = List.replicate 15 0 ++ [16] := by
  refine ⟨by omega, by omega, by omega, padInput_eq input, padInput_length input,
    padInput_mod input, ?_, ?_, by decide⟩
  · rw [padInput_length]
    omega
  · rw [padInput_eq input]
    exact List.take_left' rfl

/-- Witness for C5 at the empty message. -/
theorem padInput_spec_witness :
    1 ≤ 16 - ([] : List Nat).length % 16 ∧ 16 - ([] : List Nat).length % 16 ≤ 16 ∧
    (([] : List Nat).length % 16 = 0 → 16 - ([] : List Nat).length % 16 = 16) ∧
    padInput [] = [] ++ (List.replicate (16 - ([] : List Nat).length % 16 - 1) 0 ++
      [16 - ([] : List Nat).length % 16]) ∧
    (padInput []).length = ([] : List Nat).length + (16 - ([] : List Nat).length % 16) ∧
    (padInput []).length % 16 = 0 ∧ 0 < (padInput []).length ∧
    (padInput []).take ([] : List Nat).length = [] ∧
    padInput [] = List.replicate 15 0 ++ [16] :=
  padInput_spec []

/-- C6 counterexample: a ciphertext whose last block decrypts to the all-zero
block (pad byte 0) is accepted and the whole block is returned, where the
claim demands a fatal InvalidPadding rejection with no output. -/
theorem decrypt_padZero_counterexample :
    decrypt 128 (List.replicate 16 0) zeroKeyCipherZeroBlock =
      Except.ok (List.replicate 16 0) := by
  decide!

/-- C6 amended: decryption reads the final byte L of the inverse-transformed
last block and keeps `slice(0, 16 - L)` with JS slice semantics — no
validation is performed and no padding error exists: `1 ≤ L ≤ 16` keeps
`16 - L` bytes, `L = 0` keeps the whole block, and `L > 16` wraps the negative
slice end, keeping `32 - min L 32` bytes. -/
theorem decrypt_padding_amended {keySize kl n : Nat} {key input : List Nat}
    {ks : List (List Nat)} (hp : keyParams keySize = some (n, kl))
    (hks : keyExpansion key 4 kl n = Except.ok ks) (halign : input.length % 16 = 0) :
    decrypt keySize key input = Except.ok
      ((((List.range (input.length / 16 - 1)).map fun i =>
        inverseCipher (chunk16 input i) ks n).flatten) ++
        (inverseCipher (chunk16 input (input.length / 16 - 1)) ks n).take
          (sliceEndIndex 16 ((16 : Int) -
            (inverseCipher (chunk16 input (input.length / 16 - 1)) ks n).getD 15 0))) ∧
    (∀ L : Nat, (1 ≤ L → L ≤ 16 → sliceEndIndex 16 ((16 : Int) - L) = 16 - L) ∧
      (L = 0 → sliceEndIndex 16 ((16 : Int) - L) = 16) ∧
      (16 < L → sliceEndIndex 16 ((16 : Int) - L) = 32 - min L 32)) := by
  constructor
  · rw [decrypt_eq hp hks halign,
      removePadding_16_raw (inverseCipher_length _ _ _)]
  · intro L
    refine ⟨?_, ?_, ?_⟩
    · intro h1 h2
      rw [sliceEndIndex, if_neg (by omega)]
      omega
    · intro h
      subst h
      rw [sliceEndIndex, if_neg (by omega)]
      omega
    · intro h
      rw [sliceEndIndex, if_pos (by omega)]
      omega

/-- Witness for C6 amended at the 128-bit zero key and a one-block ciphertext. -/
theorem decrypt_padding_amended_witness :
    ∃ ks, keyExpansion (List.replicate 16 0) 4 4 10 = Except.ok ks ∧
      (decrypt 128 (List.replicate 16 0) zeroKeyCipherZeroBlock = Except.ok
        ((((List.range (zeroKeyCipherZeroBlock.length / 16 - 1)).map fun i =>
          inverseCipher (chunk16 zeroKeyCipherZeroBlock i) ks 10).flatten) ++
          (inverseCipher (chunk16 zeroKeyCipherZeroBlock
            (zeroKeyCipherZeroBlock.length / 16 - 1)) ks 10).take
            (sliceEndIndex 16 ((16 : Int) -
              (inverseCipher (chunk16 zeroKeyCipherZeroBlock
                (zeroKeyCipherZeroBlock.length / 16 - 1)) ks 10).getD 15 0))) ∧
      (∀ L : Nat, (1 ≤ L → L ≤ 16 → sliceEndIndex 16 ((16 : Int) - L) = 16 - L) ∧
        (L = 0 → sliceEndIndex 16 ((16 : Int) - L) = 16) ∧
        (16 < L → sliceEndIndex 16 ((16 : Int) - L) = 32 - min L 32))) :=
  ⟨_, keyExpansion_valid (Or.inl ⟨rfl, rfl, by decide⟩),
    decrypt_padding_amended (by rfl)
      (keyExpansion_valid (Or.inl ⟨rfl, rfl, by decide⟩)) (by decide)⟩

/-- C7 counterexample: `inverseCipher` applied to a 0-byte input under the
zero key's schedule raises no error and produces a 16-byte output, where the
claim demands a fatal BlockSizeMismatch for both transform directions. -/
theorem inverseCipher_no_size_check_counterexample :
    (keyExpansion (List.replicate 16 0) 4 4 10).map
      (fun ks => (inverseCipher [] ks 10).length) = Except.ok 16 := by
  decide!

/-- C7 amended: under a key schedule expanded from a valid key of either size,
`cipher` rejects any input that is not exactly 16 bytes with BlockSizeMismatch
before producing output, but `inverseCipher` performs no size check and always
produces a 16-byte output, reading missing input bytes as 0. -/
theorem blockSize_check_amended {kl n : Nat} {key : List Nat} {ks : List (List Nat)}
    (hv : (kl = 4 ∧ n = 10 ∧ key.length = 16) ∨ (kl = 8 ∧ n = 14 ∧ key.length = 32))
    (hks : keyExpansion key 4 kl n = Except.ok ks) (input : List Nat) :
    (input.length ≠ 16 → cipher input ks n = Except.error AESError.blockSizeMismatch) ∧
    (inverseCipher input ks n).length = 16 := by
  constructor
  · intro h
    rw [cipher, if_pos h]
  · exact inverseCipher_length _ _ _

/-- Witness for C7 amended at the empty input under the FIPS-197 128-bit key's
schedule. -/
theorem blockSize_check_amended_witness :
    ∃ ks, keyExpansion fipsKey128 4 4 10 = Except.ok ks ∧
      cipher [] ks 10 = Except.error AESError.blockSizeMismatch ∧
      (inverseCipher [] ks 10).length = 16 :=
  ⟨_, keyExpansion_valid (Or.inl ⟨rfl, rfl, by decide⟩),
    (blockSize_check_amended (Or.inl ⟨rfl, rfl, by decide⟩)
      (keyExpansion_valid (Or.inl ⟨rfl, rfl, by decide⟩)) []).1 (by decide),
    (blockSize_check_amended (Or.inl ⟨rfl, rfl, by decide⟩)
      (keyExpansion_valid (Or.inl ⟨rfl, rfl, by decide⟩)) []).2⟩

/-- C8: with a valid key, `decrypt` fails with the alignment error exactly on
ciphertexts whose length is not a multiple of 16, and returns output (no
alignment error) whenever the length is a multiple of 16. -/
theorem decrypt_alignment_spec {keySize : Nat} {key : List Nat}
    (hsize : (keySize = 128 ∧ key.length = 16) ∨ (keySize = 256 ∧ key.length = 32))
    (input : List Nat) :
    (input.length % 16 ≠ 0 →
      decrypt keySize key input = Except.error AESError.ciphertextAlignment) ∧
    (input.length % 16 = 0 → ∃ out, decrypt keySize key input = Except.ok out) := by
  have hv : ∃ kl n, keyParams keySize = some (n, kl) ∧
      ((kl = 4 ∧ n = 10 ∧ key.length = 16) ∨ (kl = 8 ∧ n = 14 ∧ key.length = 32)) := by
    rcases hsize with ⟨h1, h2⟩ | ⟨h1, h2⟩ <;> subst h1
    · exact ⟨4, 10, rfl, Or.inl ⟨rfl, rfl, h2⟩⟩
    · exact ⟨8, 14, rfl, Or.inr ⟨rfl, rfl, h2⟩⟩
  obtain ⟨kl, n, hp, hvv⟩ := hv
  have hks := keyExpansion_valid hvv
  constructor
  · intro h
    simp only [decrypt, hp, hks, except_bind_ok]
    rw [if_pos h]
  · intro h
    exact ⟨_, decrypt_eq hp hks h⟩

/-- Witness for C8: a 3-byte ciphertext is rejected and a 16-byte one is
accepted under the FIPS-197 128-bit key. -/
theorem decrypt_alignment_spec_witness :
    decrypt 128 fipsKey128 [1, 2, 3] = Except.error AESError.ciphertextAlignment ∧
    ∃ out, decrypt 128 fipsKey128 (List.replicate 16 0) = Except.ok out :=
  ⟨(decrypt_alignment_spec (Or.inl ⟨rfl, by decide⟩) [1, 2, 3]).1 (by decide),
   (decrypt_alignment_spec (Or.inl ⟨rfl, by decide⟩) (List.replicate 16 0)).2 (by decide)⟩

/-- C9: for bytes `a` and `b`, `multiply a 0 = 0`, `multiply a 1 = a`,
`multiply` is symmetric, agrees with GF(2^8) multiplication reduced by
x^8+x^4+x^3+x+1, and `multiply a 2` is the doubling shortcut of `mixColumns`. -/
theorem multiply_contract {a b : Nat} (ha : a < 256) (hb : b < 256) :
    multiply a 0 = 0 ∧ multiply a 1 = a ∧ multiply a b = multiply b a ∧
    multiply a b = gfMulRef a b ∧ multiply a 2 = double a :=
  ⟨multiply_zero_right a, multiply_one_right a, multiply_comm_bytes ha hb,
   multiply_eq_gfMulRef ha hb, multiply_two_right a⟩

/-- Witness for C9 at `a = 0x57`, `b = 0x83`. -/
theorem multiply_contract_witness :
    multiply 0x57 0 = 0 ∧ multiply 0x57 1 = 0x57 ∧
    multiply 0x57 0x83 = multiply 0x83 0x57 ∧
    multiply 0x57 0x83 = gfMulRef 0x57 0x83 ∧ multiply 0x57 2 = double 0x57 :=
  multiply_contract (by decide) (by decide)

/-- C10 counterexample: decrypting the empty ciphertext under the FIPS-197
256-bit key succeeds but returns a nonempty 7-byte output, where the claim
demands empty output. -/
theorem decrypt_empty_counterexample :
    decrypt 256 fipsKey256 [] = Except.ok [109, 159, 8, 235, 42, 46, 39] ∧
    ¬ decrypt 256 fipsKey256 [] = Except.ok [] := by
  constructor
  · decide!
  · decide!

/-- C10 amended: decrypting a zero-length ciphertext raises neither an
alignment nor a padding error; the empty last-block slice is handed to
`inverseCipher`, which treats it as the all-zero block, and the output is
that 16-byte result with its final byte interpreted as padding — in general
nonempty. -/
theorem decrypt_empty_amended {keySize kl n : Nat} {key : List Nat}
    {ks : List (List Nat)} (hp : keyParams keySize = some (n, kl))
    (hks : keyExpansion key 4 kl n = Except.ok ks) :
    decrypt keySize key [] = Except.ok
      (removePaddingFromInput (inverseCipher (List.replicate 16 0) ks n)) :=
  decrypt_empty_core hp hks

/-- Witness for C10 amended at the 128-bit zero key. -/
theorem decrypt_empty_amended_witness :
    ∃ ks, keyExpansion (List.replicate 16 0) 4 4 10 = Except.ok ks ∧
      decrypt 128 (List.replicate 16 0) [] = Except.ok
        (removePaddingFromInput (inverseCipher (List.replicate 16 0) ks 10)) :=
  ⟨_, keyExpansion_valid (Or.inl ⟨rfl, rfl, by decide⟩),
    decrypt_empty_amended (by rfl) (keyExpansion_valid (Or.inl ⟨rfl, rfl, by decide⟩))⟩

end AESjs
